import Mathlib

/-!
Verification of the dotai installer's sync engine (`install.py`).

The Python code is shallowly embedded as follows.

* A filesystem path is a list of segments (`FPath`); the filesystem is an
  association list from paths to file contents (`FS`).  File contents are
  modelled as `String` (the code compares files with `read_bytes()`
  equality; we assume UTF-8 decodable contents, which is what the installer
  manages).
* The ordered run log is a list of `LogEntry` values, mirroring the
  `(status, label)` pairs appended by the code.
* `backup_file` (install.py line 178) produces the sibling path
  `<name>.bak.<timestamp>`; the current timestamp is passed explicitly as a
  string parameter `ts`.
* Structured settings documents are modelled by the `JValue` tree; JSON
  objects are association lists in insertion order, matching Python's
  order-preserving `dict`.
* `smart_install` also counts the filesystem mutations (`shutil.copy2` /
  `unlink` calls) it performs, so that idempotence claims about "mutating
  writes" can be stated.
-/

/-- The eight log statuses produced by the installer (install.py run log). -/
inductive Status where
  | installed
  | updated
  | removed
  | current
  | skipped
  | snapshot
  | restored
  | warning
deriving DecidableEq

/-- One `(status, label)` pair appended to the ordered run log. -/
structure LogEntry where
  status : Status
  label : String
deriving DecidableEq

abbrev Log := List LogEntry

/-- A filesystem path, as a list of segments (no separators inside a segment). -/
abbrev FPath := List String

/-- The filesystem: an association list from paths to file contents.
`fsGet` returns the first binding, mirroring a real file lookup. -/
abbrev FS := List (FPath × String)

def fsGet : FS → FPath → Option String
  | [], _ => none
  | (q, b) :: rest, p => if q = p then some b else fsGet rest p

def fsErase : FS → FPath → FS
  | [], _ => []
  | (q, b) :: rest, p => if q = p then fsErase rest p else (q, b) :: fsErase rest p

/-- Writing a file: any previous binding for the path is replaced. -/
def fsSet (fs : FS) (p : FPath) (b : String) : FS :=
  (p, b) :: fsErase fs p

theorem fsGet_fsErase_self (fs : FS) (p : FPath) : fsGet (fsErase fs p) p = none := by
  induction fs with
  | nil => rfl
  | cons e rest ih =>
    obtain ⟨q, b⟩ := e
    by_cases h : q = p <;> simp [fsErase, fsGet, h, ih]

theorem fsGet_fsErase_ne (fs : FS) (p q : FPath) (h : q ≠ p) :
    fsGet (fsErase fs p) q = fsGet fs q := by
  induction fs with
  | nil => rfl
  | cons e rest ih =>
    obtain ⟨r, b⟩ := e
    simp only [fsErase, fsGet]
    by_cases hr : r = p
    · subst hr
      have hrq : ¬ (r = q) := fun hh => h (hh ▸ rfl)
      simp [hrq, ih]
    · by_cases hq : r = q
      · subst hq
        simp [h, fsGet]
      · simp [hr, hq, fsGet, ih]

theorem fsGet_fsSet_self (fs : FS) (p : FPath) (b : String) :
    fsGet (fsSet fs p b) p = some b := by
  simp [fsSet, fsGet]

theorem fsGet_fsSet_ne (fs : FS) (p q : FPath) (b : String) (h : q ≠ p) :
    fsGet (fsSet fs p b) q = fsGet fs q := by
  have hpq : ¬ (p = q) := fun hh => h hh.symm
  simp only [fsSet, fsGet, if_neg hpq]
  exact fsGet_fsErase_ne fs p q h

/-- The file-name component of a path (Python `Path.name`). -/
def pathName (p : FPath) : String :=
  (p.getLast?).getD ("")

/-- `backup_file` (install.py line 178): name of the timestamped sibling
backup, `<original-name>.bak.<timestamp>`. -/
def bakName (p : FPath) (ts : String) : String :=
  pathName p ++ (".bak.") ++ ts

/-- `backup_file`: full path of the backup, a sibling of the original. -/
def bakPath (p : FPath) (ts : String) : FPath :=
  p.dropLast ++ [bakName p ts]

theorem bakPath_ne (p : FPath) (ts : String) (h : p ≠ []) : bakPath p ts ≠ p := by
  intro he
  have h2 : some (bakName p ts) = some (p.getLast h) := by
    rw [← List.getLast?_concat p.dropLast, ← bakPath, he, List.getLast?_eq_getLast p h]
  have h3 := congrArg String.length (Option.some.inj h2)
  have hname : pathName p = p.getLast h := by
    simp [pathName, List.getLast?_eq_getLast p h]
  rw [bakName, hname, String.length_append, String.length_append] at h3
  have hb : (".bak." : String).length = 5 := rfl
  rw [hb] at h3
  omega

/-- Result of a single install/remove operation: the new filesystem, the
log (the operation appends to the log it is given), and the number of
mutating filesystem operations (`shutil.copy2` / `unlink` calls) performed. -/
structure OpResult where
  fs : FS
  log : Log
  writes : Nat
deriving DecidableEq

/-- `smart_install(src, dest, label, log)` (install.py lines 345-356):
if the destination is absent, copy and log `installed`; if present with
differing bytes, back the destination up to its `.bak.<ts>` sibling,
overwrite, and log `updated` naming the backup; if present with equal
bytes, do nothing and log `current`.  (`mkdir(parents=True)` has no
counterpart here because the model has no directory objects.) -/
def smart_install (src : String) (dest : FPath) (label : String) (ts : String)
    (fs : FS) (log : Log) : OpResult :=
  match fsGet fs dest with
  | none => ⟨fsSet fs dest src, log ++ [⟨.installed, label⟩], 1⟩
  | some db =>
      if src ≠ db then
        ⟨fsSet (fsSet fs (bakPath dest ts) db) dest src,
         log ++ [⟨.updated, label ++ (" (backed up -> ") ++ bakName dest ts ++ (")")⟩], 2⟩
      else ⟨fs, log ++ [⟨.current, label⟩], 0⟩

/-- `remove_with_log(dest, label, log)` (install.py lines 359-364):
if the destination exists, back it up, delete it and log `removed`;
otherwise do nothing (and log nothing). -/
def remove_with_log (dest : FPath) (label : String) (ts : String)
    (fs : FS) (log : Log) : OpResult :=
  match fsGet fs dest with
  | some db =>
      ⟨fsErase (fsSet fs (bakPath dest ts) db) dest,
       log ++ [⟨.removed, label ++ (" (backed up -> ") ++ bakName dest ts ++ (")")⟩], 2⟩
  | none => ⟨fs, log, 0⟩

/-!
## `file_has_content` and the task-template step

`file_has_content` (install.py lines 141-147) strips the text, removes
HTML comments with the non-greedy pattern of `re.sub(r"<!--.*?-->", ...)`,
and looks for a line that is non-blank after stripping and does not start
with `#`.  The comment removal is modelled by a scanner (`scAux`) that
drops each `<!--` ... nearest `-->` block and leaves an unterminated
`<!--` untouched, exactly as the regex does.  `splitlines` is modelled by
splitting on a newline character.
-/

def isSpaceChar (c : Char) : Bool :=
  c == ' ' || c == '\t' || c == '\n' || c == '\r' || c == '\x0b' || c == '\x0c'

/-- Python `str.strip()` on a character list. -/
def trimChars (l : List Char) : List Char :=
  ((l.dropWhile isSpaceChar).reverse.dropWhile isSpaceChar).reverse

/-- Comment-stripping scanner: `none` = scanning, `some buf` = inside a
candidate comment whose consumed characters are `buf` (emitted verbatim if
no closing `-->` ever appears, as the regex then has no match). -/
def scAux : Option (List Char) → List Char → List Char
  | none, [] => []
  | none, '<' :: '!' :: '-' :: '-' :: rest => scAux (some ['<', '!', '-', '-']) rest
  | none, c :: rest => c :: scAux none rest
  | some _, '-' :: '-' :: '>' :: rest => scAux none rest
  | some buf, c :: rest => scAux (some (buf ++ [c])) rest
  | some buf, [] => buf

def splitNl : List Char → List (List Char)
  | [] => [[]]
  | '\n' :: rest => [] :: splitNl rest
  | c :: rest =>
      match splitNl rest with
      | [] => [[c]]
      | l :: ls => (c :: l) :: ls

def startsWithHash : List Char → Bool
  | '#' :: _ => true
  | _ => false

/-- `l.strip() and not l.strip().startswith("#")` for one line. -/
def lineHasContent (l : List Char) : Bool :=
  !(trimChars l).isEmpty && !startsWithHash (trimChars l)

/-- `file_has_content(path)` (install.py lines 141-147) on the file's text. -/
def file_has_content (text : String) : Bool :=
  (splitNl (scAux none (trimChars text.data))).any lineHasContent

/-- The task-template step of `run_install` (install.py lines 545-552):
for each template, if the destination exists and has content it is
skipped; otherwise `shutil.copy2` overwrites it unconditionally — with no
backup of any existing (content-less) destination. -/
def install_task_template (src : String) (dest : FPath) (label : String)
    (fs : FS) (log : Log) : FS × Log :=
  match fsGet fs dest with
  | some content =>
      if file_has_content content then
        (fs, log ++ [⟨.skipped, label ++ (" (has content)")⟩])
      else (fsSet fs dest src, log ++ [⟨.installed, label⟩])
  | none => (fsSet fs dest src, log ++ [⟨.installed, label⟩])

/-!
## Snapshot restore (`restore_snapshot`, install.py lines 239-264)

A snapshot is modelled as a list of `(relative path, bytes)` entries (the
files found under the snapshot directory; symlinks are filtered out by the
code before this point).  The filesystem is keyed by resolved paths — the
OS resolves a path on open — and `Path.resolve()` is modelled by
`resolvePath`, which normalizes `.` and `..` segments (symbolic links are
outside the model).  Resolving above the root stops at the empty
(filesystem-root) path, as on a real system.
-/

def resolveSeg (acc : FPath) (seg : String) : FPath :=
  if seg = (".") then acc
  else if seg = ("..") then acc.dropLast
  else acc ++ [seg]

def resolvePath (p : FPath) : FPath := p.foldl resolveSeg []

/-- The containment check `dest.resolve().relative_to(resolved_home)`:
it succeeds exactly when the resolved root is a prefix of the resolved
destination. -/
def underRoot (root p : FPath) : Bool :=
  List.isPrefixOf (resolvePath root) (resolvePath p)

def restoreLabel (rel : FPath) : String :=
  ("~/.claude/") ++ String.intercalate ("/") rel

/-- `restore_snapshot(snap_dir)` (install.py lines 239-264): for each
entry, if the resolved destination escapes the target root the entry is
skipped (`continue`) with no write and no log entry; if the destination
already has the snapshot's bytes, log `current`; otherwise back up any
existing destination, overwrite it, and log `restored`. -/
def restore_snapshot (root : FPath) (ts : String) :
    List (FPath × String) → FS → Log → FS × Log
  | [], fs, log => (fs, log)
  | (rel, b) :: rest, fs, log =>
      if underRoot root (root ++ rel) then
        match fsGet fs (resolvePath (root ++ rel)) with
        | some db =>
            if db = b then
              restore_snapshot root ts rest fs (log ++ [⟨.current, restoreLabel rel⟩])
            else
              restore_snapshot root ts rest
                (fsSet (fsSet fs (bakPath (resolvePath (root ++ rel)) ts) db)
                  (resolvePath (root ++ rel)) b)
                (log ++ [⟨.restored, restoreLabel rel⟩])
        | none =>
            restore_snapshot root ts rest (fsSet fs (resolvePath (root ++ rel)) b)
              (log ++ [⟨.restored, restoreLabel rel⟩])
      else restore_snapshot root ts rest fs log

/-!
## Mandatory-rule enforcement and the rules pass of `run_install`
-/

/-- `MANDATORY_RULES` (install.py line 76). -/
def MANDATORY_RULES : List String := [("security.md")]

/-- `RulesScreen.enforce_mandatory` (install.py lines 806-811): after every
toggle the front-end screen re-selects every mandatory name missing from
the current selection.  Pure content of that handler: add each missing
mandatory name to the selection set. -/
def enforce_mandatory (selected : List String) : List String :=
  MANDATORY_RULES.foldl (fun s n => if n ∈ s then s else s ++ [n]) selected

/-- `CLAUDE_RULES` (install.py line 72), as a path under the model root. -/
def CLAUDE_RULES : FPath := [(".claude"), ("rules")]

/-- One entry of `app.rule_info` as consumed by `run_install` (only the
fields the install pass reads: the file name and the source bytes). -/
structure RuleItem where
  name : String
  src : String

/-- The rules pass of `run_install` (install.py lines 521-529): for every
discovered rule, install it if its name is in the reported selection set,
otherwise remove it.  Note there is no re-validation of the selection
against `MANDATORY_RULES` here: the function acts on `selected` exactly as
reported by the front-end. -/
def run_install_rules (items : List RuleItem) (selected : List String) (ts : String)
    (fs : FS) (log : Log) : FS × Log :=
  items.foldl
    (fun st item =>
      if item.name ∈ selected then
        let r := smart_install item.src (CLAUDE_RULES ++ [item.name])
          (("~/.claude/rules/") ++ item.name) ts st.1 st.2
        (r.fs, r.log)
      else
        let r := remove_with_log (CLAUDE_RULES ++ [item.name])
          (("~/.claude/rules/") ++ item.name) ts st.1 st.2
        (r.fs, r.log))
    (fs, log)

/-!
## Structured settings documents

JSON values as read/written by the settings code.  JSON objects are
association lists of `(key, value)` pairs in insertion order, matching
Python's order-preserving `dict`; numbers are modelled as integers (the
settings documents the installer manages contain no floats).
-/

inductive JValue where
  | str (s : String)
  | num (n : Int)
  | bool (b : Bool)
  | null
  | arr (xs : List JValue)
  | obj (o : List (String × JValue))

abbrev JObj := List (String × JValue)

mutual
def jvalDecEq : (a b : JValue) → Decidable (a = b)
  | .str a, .str b =>
      match String.decEq a b with
      | .isTrue h => .isTrue (congrArg JValue.str h)
      | .isFalse h => .isFalse (fun he => h (JValue.str.inj he))
  | .num a, .num b =>
      match Int.decEq a b with
      | .isTrue h => .isTrue (congrArg JValue.num h)
      | .isFalse h => .isFalse (fun he => h (JValue.num.inj he))
  | .bool a, .bool b =>
      match Bool.decEq a b with
      | .isTrue h => .isTrue (congrArg JValue.bool h)
      | .isFalse h => .isFalse (fun he => h (JValue.bool.inj he))
  | .null, .null => .isTrue rfl
  | .arr a, .arr b =>
      match jlistDecEq a b with
      | .isTrue h => .isTrue (congrArg JValue.arr h)
      | .isFalse h => .isFalse (fun he => h (JValue.arr.inj he))
  | .obj a, .obj b =>
      match jobjDecEq a b with
      | .isTrue h => .isTrue (congrArg JValue.obj h)
      | .isFalse h => .isFalse (fun he => h (JValue.obj.inj he))
  | .str _, .num _ => .isFalse (fun h => JValue.noConfusion h)
  | .str _, .bool _ => .isFalse (fun h => JValue.noConfusion h)
  | .str _, .null => .isFalse (fun h => JValue.noConfusion h)
  | .str _, .arr _ => .isFalse (fun h => JValue.noConfusion h)
  | .str _, .obj _ => .isFalse (fun h => JValue.noConfusion h)
  | .num _, .str _ => .isFalse (fun h => JValue.noConfusion h)
  | .num _, .bool _ => .isFalse (fun h => JValue.noConfusion h)
  | .num _, .null => .isFalse (fun h => JValue.noConfusion h)
  | .num _, .arr _ => .isFalse (fun h => JValue.noConfusion h)
  | .num _, .obj _ => .isFalse (fun h => JValue.noConfusion h)
  | .bool _, .str _ => .isFalse (fun h => JValue.noConfusion h)
  | .bool _, .num _ => .isFalse (fun h => JValue.noConfusion h)
  | .bool _, .null => .isFalse (fun h => JValue.noConfusion h)
  | .bool _, .arr _ => .isFalse (fun h => JValue.noConfusion h)
  | .bool _, .obj _ => .isFalse (fun h => JValue.noConfusion h)
  | .null, .str _ => .isFalse (fun h => JValue.noConfusion h)
  | .null, .num _ => .isFalse (fun h => JValue.noConfusion h)
  | .null, .bool _ => .isFalse (fun h => JValue.noConfusion h)
  | .null, .arr _ => .isFalse (fun h => JValue.noConfusion h)
  | .null, .obj _ => .isFalse (fun h => JValue.noConfusion h)
  | .arr _, .str _ => .isFalse (fun h => JValue.noConfusion h)
  | .arr _, .num _ => .isFalse (fun h => JValue.noConfusion h)
  | .arr _, .bool _ => .isFalse (fun h => JValue.noConfusion h)
  | .arr _, .null => .isFalse (fun h => JValue.noConfusion h)
  | .arr _, .obj _ => .isFalse (fun h => JValue.noConfusion h)
  | .obj _, .str _ => .isFalse (fun h => JValue.noConfusion h)
  | .obj _, .num _ => .isFalse (fun h => JValue.noConfusion h)
  | .obj _, .bool _ => .isFalse (fun h => JValue.noConfusion h)
  | .obj _, .null => .isFalse (fun h => JValue.noConfusion h)
  | .obj _, .arr _ => .isFalse (fun h => JValue.noConfusion h)
def jlistDecEq : (a b : List JValue) → Decidable (a = b)
  | [], [] => .isTrue rfl
  | [], _ :: _ => .isFalse (fun h => List.noConfusion h)
  | _ :: _, [] => .isFalse (fun h => List.noConfusion h)
  | x :: xs, y :: ys =>
      match jvalDecEq x y, jlistDecEq xs ys with
      | .isTrue h1, .isTrue h2 => .isTrue (by rw [h1, h2])
      | .isFalse h1, _ => .isFalse (by intro he; injection he with a b; exact h1 a)
      | _, .isFalse h2 => .isFalse (by intro he; injection he with a b; exact h2 b)
def jobjDecEq : (a b : JObj) → Decidable (a = b)
  | [], [] => .isTrue rfl
  | [], _ :: _ => .isFalse (fun h => List.noConfusion h)
  | _ :: _, [] => .isFalse (fun h => List.noConfusion h)
  | (k1, v1) :: xs, (k2, v2) :: ys =>
      match String.decEq k1 k2, jvalDecEq v1 v2, jobjDecEq xs ys with
      | .isTrue h0, .isTrue h1, .isTrue h2 => .isTrue (by rw [h0, h1, h2])
      | .isFalse h0, _, _ =>
          .isFalse (by intro he; injection he with a b; injection a with a1 a2; exact h0 a1)
      | _, .isFalse h1, _ =>
          .isFalse (by intro he; injection he with a b; injection a with a1 a2; exact h1 a2)
      | _, _, .isFalse h2 => .isFalse (by intro he; injection he with a b; exact h2 b)
end

instance : DecidableEq JValue := jvalDecEq

/-- `d[k]` / `k in d` on a JSON object: the first binding for the key. -/
def objGet : JObj → String → Option JValue
  | [], _ => none
  | (k1, v) :: rest, k => if k1 = k then some v else objGet rest k

/-- `d[k] = v` on a JSON object: replace the binding in place if the key
is present, else append it at the end — Python `dict` insertion-order
semantics. -/
def objSet : JObj → String → JValue → JObj
  | [], k, v => [(k, v)]
  | (k1, v1) :: rest, k, v =>
      if k1 = k then (k, v) :: rest else (k1, v1) :: objSet rest k v

/-- The list branch of the merge (install.py lines 406-409) and of the
permission-list re-merge (lines 463-466): append each overlay element not
already present, by value equality, to the base list. -/
def dedupeAppend (b o : List JValue) : List JValue :=
  o.foldl (fun acc x => if x ∈ acc then acc else acc ++ [x]) b

mutual
/-- `deep_merge_settings(base, overlay)` (install.py lines 400-412), as a
function of the two documents' values.  (Its heap behaviour — the shallow
copy `dict(base)` and the in-place list append — is modelled separately
below by `dmhList`.) -/
def deep_merge_settings (base : JObj) : JObj → JObj
  | [] => base
  | (k, v) :: rest => deep_merge_settings (mergeEntry base k v) rest
/-- One iteration of the `for key, value in overlay.items()` loop of
`deep_merge_settings`: both values mappings → recurse; both values lists →
de-duplicating append; otherwise the overlay value replaces the base
value (also when the key is new). -/
def mergeEntry (base : JObj) (k : String) : JValue → JObj
  | .obj oo =>
      match objGet base k with
      | some (.obj bo) => objSet base k (.obj (deep_merge_settings bo oo))
      | _ => objSet base k (.obj oo)
  | .arr ol =>
      match objGet base k with
      | some (.arr bl) => objSet base k (.arr (dedupeAppend bl ol))
      | _ => objSet base k (.arr ol)
  | v => objSet base k v
end

/-!
## `install_global_settings` (install.py lines 427-491)

The merge pipeline is embedded as a pure function of the parsed template,
the parsed existing document, and the selected model id
(`MODEL_CHOICES[default_model]`; `none` models both `--model none` and a
missing choice, for which the code skips the injection).  Where the Python
code would raise on a shape mismatch (`dict(base)` / `.items()` /
`.setdefault` / indexing applied to a non-mapping value, or iterating a
non-list permission entry), the model returns `none`: such a run dies with
an exception and produces no outcome.
-/

/-- Lines 439-440 and 473-474: `template["model"] = MODEL_CHOICES[default_model]`
when a model was selected. -/
def injectModel (doc : JObj) (modelVal : Option String) : JObj :=
  match modelVal with
  | some m => objSet doc ("model") (.str m)
  | none => doc

/-- Lines 456-459: re-merge the `env` sub-tree with the template as
overlay, so template env keys are forcibly present. -/
def envStage (tmpl merged : JObj) : Option JObj :=
  match objGet tmpl ("env") with
  | none => some merged
  | some (.obj tenv) =>
      match objGet merged ("env") with
      | none => some (objSet merged ("env") (.obj (deep_merge_settings [] tenv)))
      | some (.obj menv) => some (objSet merged ("env") (.obj (deep_merge_settings menv tenv)))
      | some _ => none
  | some _ => none

/-- Lines 461-466: for one of `allow`/`deny`/`ask` present in the
template's permissions, append the template's entries (without
duplicates) to `merged.setdefault("permissions", {}).setdefault(key, [])`. -/
def permListStep (tperm : JObj) (k : String) (merged : JObj) : Option JObj :=
  match objGet tperm k with
  | none => some merged
  | some (.arr tl) =>
      match objGet merged ("permissions") with
      | none =>
          some (objSet merged ("permissions") (.obj (objSet [] k (.arr (dedupeAppend [] tl)))))
      | some (.obj p) =>
          match objGet p k with
          | none =>
              some (objSet merged ("permissions") (.obj (objSet p k (.arr (dedupeAppend [] tl)))))
          | some (.arr bl) =>
              some (objSet merged ("permissions") (.obj (objSet p k (.arr (dedupeAppend bl tl)))))
          | some _ => none
      | some _ => none
  | some _ => none

/-- Lines 467-470: a scalar permission key present in the template's
permissions is assigned directly from the template. -/
def permScalarStep (tperm : JObj) (k : String) (merged : JObj) : Option JObj :=
  match objGet tperm k with
  | none => some merged
  | some v =>
      match objGet merged ("permissions") with
      | none => some (objSet merged ("permissions") (.obj (objSet [] k v)))
      | some (.obj p) => some (objSet merged ("permissions") (.obj (objSet p k v)))
      | some _ => none

/-- Lines 460-470: the whole permissions re-merge, in source order:
`allow`, `deny`, `ask` lists, then the `defaultMode` and
`disableBypassPermissionsMode` scalars. -/
def permStage (tmpl merged : JObj) : Option JObj :=
  match objGet tmpl ("permissions") with
  | none => some merged
  | some (.obj tperm) =>
      (permListStep tperm ("allow") merged).bind
        (fun m1 => (permListStep tperm ("deny") m1).bind
          (fun m2 => (permListStep tperm ("ask") m2).bind
            (fun m3 => (permScalarStep tperm ("defaultMode") m3).bind
              (fun m4 => permScalarStep tperm ("disableBypassPermissionsMode") m4))))
  | some _ => none

/-- Lines 439-474: the complete merge computed by
`install_global_settings` before the change-detection step: inject the
selected model into the template, `deep_merge_settings(template,
existing)`, then the env re-merge, the permissions re-merge, and the final
model override. -/
def install_global_merge (template existing : JObj) (modelVal : Option String) : Option JObj :=
  (envStage (injectModel template modelVal)
      (deep_merge_settings (injectModel template modelVal) existing)).bind
    (fun m1 => (permStage (injectModel template modelVal) m1).map
      (fun m2 => injectModel m2 modelVal))

/-- State of the on-disk `~/.claude/settings.json` before the run:
absent, present but not valid JSON, or present and parsed.  (A file whose
JSON is a non-object value is outside the model; the code would crash on
it later, in `deep_merge_settings`.) -/
inductive SettingsFile where
  | absent
  | malformed
  | parsed (doc : JObj)
deriving DecidableEq

/-- Observable outcome of `install_global_settings`: the log entries it
appends, the document it writes (if any), and whether it backed up the
pre-existing settings file. -/
structure SettingsOutcome where
  log : Log
  write : Option JObj
  backedUpExisting : Bool
deriving DecidableEq

def settingsLabel : String := ("~/.claude/settings.json")

def SETTINGS_PATH : FPath := [(".claude"), ("settings.json")]

/-- `install_global_settings(default_model, log)` (install.py lines
427-491).  `template = none` models a template that failed to read or
parse (warning, early return).  A malformed existing document is backed
up, logged as a warning, and replaced by the empty document for the merge
(lines 443-450).  Change detection (lines 477-490): equal documents log
`current` with no write; otherwise the file is written, with a prior
backup exactly when it existed and parsed to a truthy (non-empty)
document.  The trailing AWS-profile warning and statusline install (lines
492-504) are not part of the model.  Document equality is modelled
structurally; Python's `==` on dicts ignores key order, which coincides
with the model whenever key order is preserved by the merge (it only
affects which of `current`/`updated` is logged, not the merge result). -/
def install_global_settings (template : Option JObj) (modelVal : Option String)
    (file : SettingsFile) (ts : String) : Option SettingsOutcome :=
  match template with
  | none => some ⟨[⟨.warning, settingsLabel ++ (" (failed to read template)")⟩], none, false⟩
  | some tmpl =>
      match install_global_merge tmpl
          (match file with | .parsed doc => doc | _ => []) modelVal with
      | none => none
      | some merged =>
          let existing : JObj := match file with | .parsed doc => doc | _ => []
          let log0 : Log := match file with
            | .malformed =>
                [⟨.warning, settingsLabel ++ (" (malformed JSON, backed up -> ")
                  ++ String.intercalate ("/") (bakPath SETTINGS_PATH ts) ++ (")")⟩]
            | _ => []
          let bak0 : Bool := match file with | .malformed => true | _ => false
          if existing = merged then
            some ⟨log0 ++ [⟨.current, settingsLabel⟩], none, bak0⟩
          else if file ≠ SettingsFile.absent ∧ existing ≠ [] then
            some ⟨log0 ++ [⟨.updated, settingsLabel ++ (" (backed up -> ")
                    ++ String.intercalate ("/") (bakPath SETTINGS_PATH ts) ++ (")")⟩],
                  some merged, true⟩
          else
            some ⟨log0 ++ [⟨.installed, settingsLabel⟩], some merged, bak0⟩

/-!
## `install_auto_read` (install.py lines 367-397)
-/

/-- `AUTO_READ_PERMISSIONS["permissions"]["allow"]` (install.py lines 91-103). -/
def AUTO_READ_TOOLS : List JValue :=
  [.str ("Read"), .str ("Glob"), .str ("Grep"), .str ("Bash(ls:*)"),
   .str ("Bash(git diff:*)"), .str ("Bash(git log:*)"), .str ("Bash(git status:*)")]

/-- The `AUTO_READ_PERMISSIONS` constant as a JSON document. -/
def AUTO_READ_PERMISSIONS : JObj :=
  [(("permissions" : String), .obj [(("allow" : String), .arr AUTO_READ_TOOLS)])]

/-- State of the project's `.claude/settings.json`: absent, present but
unparsable (`json.JSONDecodeError`/`OSError`), or parsed. -/
inductive ProjSettings where
  | absent
  | malformed
  | parsed (doc : JObj)
deriving DecidableEq

/-- Observable outcome of `install_auto_read`: the document written (if
any), the single log entry appended, and whether any backup was made.
The source function contains no `backup_file` call at all, so `backedUp`
is `false` on every path. -/
structure AutoReadOutcome where
  write : Option JObj
  entry : LogEntry
  backedUp : Bool
deriving DecidableEq

/-- The merge path of `install_auto_read` (lines 374-392), for an existing
file whose parse produced `existing` (the unparsable case degrades to the
empty document with no warning and no backup).  `none` models the
`AttributeError`/`TypeError` the code raises when `permissions` or
`allow` has a non-mapping/non-list shape. -/
def install_auto_read_merge (existing : JObj) : Option AutoReadOutcome :=
  match
    (match objGet existing ("permissions") with
      | none => some ([] : JObj)
      | some (.obj p) => some p
      | some _ => none) with
  | none => none
  | some perms =>
      match
        (match objGet perms ("allow") with
          | none => some ([] : List JValue)
          | some (.arr l) => some l
          | some _ => none) with
      | none => none
      | some allow =>
          if dedupeAppend allow AUTO_READ_TOOLS = allow then
            some ⟨none, ⟨.current, (".claude/settings.json (permissions already present)")⟩, false⟩
          else
            some ⟨some (objSet existing ("permissions")
                    (.obj (objSet perms ("allow") (.arr (dedupeAppend allow AUTO_READ_TOOLS))))),
              ⟨.installed, (".claude/settings.json (added ")
                ++ toString ((dedupeAppend allow AUTO_READ_TOOLS).length - allow.length)
                ++ (" permissions)")⟩, false⟩

/-- `install_auto_read(cwd, log)` (install.py lines 367-397). -/
def install_auto_read : ProjSettings → Option AutoReadOutcome
  | .absent =>
      some ⟨some AUTO_READ_PERMISSIONS,
        ⟨.installed, (".claude/settings.json (auto-approve read)")⟩, false⟩
  | .malformed => install_auto_read_merge []
  | .parsed doc => install_auto_read_merge doc

/-!
## Heap-level model of `deep_merge_settings` (for its frame effects)

`deep_merge_settings` starts with the shallow copy `dict(base)` — the new
dict shares every nested container with `base` — and its list branch
calls `merged[key].append(item)`, mutating the list object in place.  To
state this, documents are re-modelled with explicit list objects: an
`HVal` is a scalar, a nested object (inline association list, copied
shallowly just like `dict(base)` copies the key-to-reference table), or a
reference into a heap of list objects.  List elements are plain values
(the merge only ever compares and appends whole elements).
-/

abbrev Ref := Nat

/-- The heap of Python list objects: `Ref`s index into it. -/
abbrev Heap := List (List JValue)

def heapGet (h : Heap) (r : Ref) : List JValue := h.getD r []

def heapSet (h : Heap) (r : Ref) (v : List JValue) : Heap := h.set r v

inductive HVal where
  | arr (r : Ref)
  | obj (o : List (String × HVal))
  | prim (v : JValue)

abbrev HObj := List (String × HVal)

def hobjGet : HObj → String → Option HVal
  | [], _ => none
  | (k1, v) :: rest, k => if k1 = k then some v else hobjGet rest k

def hobjSet : HObj → String → HVal → HObj
  | [], k, v => [(k, v)]
  | (k1, v1) :: rest, k, v =>
      if k1 = k then (k, v) :: rest else (k1, v1) :: hobjSet rest k v

mutual
def hvalRefs : HVal → List Ref
  | .arr r => [r]
  | .prim _ => []
  | .obj o => hobjRefs o
def hobjRefs : HObj → List Ref
  | [] => []
  | (_, v) :: rest => hvalRefs v ++ hobjRefs rest
end

mutual
/-- `deep_merge_settings` (install.py lines 400-412) with its heap
effects: the result object is the shallow copy `dict(base)` updated by
the loop, and the list branch mutates the base's own list object in
place (`merged[key].append(item)`), leaving the reference — shared with
`base` — in the result. -/
def dmhList (h : Heap) (base : HObj) : List (String × HVal) → Heap × HObj
  | [] => (h, base)
  | (k, v) :: rest => dmhList (dmhEntry h base k v).1 (dmhEntry h base k v).2 rest
/-- One iteration of the overlay loop, heap-level. -/
def dmhEntry (h : Heap) (base : HObj) (k : String) : HVal → Heap × HObj
  | .obj oo =>
      match hobjGet base k with
      | some (.obj bo) =>
          ((dmhList h bo oo).1, hobjSet base k (.obj (dmhList h bo oo).2))
      | _ => (h, hobjSet base k (.obj oo))
  | .arr ro =>
      match hobjGet base k with
      | some (.arr rb) =>
          (heapSet h rb (dedupeAppend (heapGet h rb) (heapGet h ro)), base)
      | _ => (h, hobjSet base k (.arr ro))
  | .prim p => (h, hobjSet base k (.prim p))
end

/-!
## Claims about `smart_install`, `remove_with_log` and the task templates
-/

/-- C4: `smart_install(src, dest)` satisfies exactly one of three cases:
destination absent → copy source to destination and emit `installed`;
destination present with differing bytes → back the destination up to its
timestamp-suffixed sibling, overwrite it with the source, and emit
`updated` naming the backup; destination present with equal bytes → no
write and emit `current`. -/
theorem smart_install_cases (src : String) (dest : FPath) (label ts : String)
    (fs : FS) (log : Log) :
    (fsGet fs dest = none →
      smart_install src dest label ts fs log =
        ⟨fsSet fs dest src, log ++ [⟨.installed, label⟩], 1⟩) ∧
    (∀ db, fsGet fs dest = some db → db ≠ src →
      smart_install src dest label ts fs log =
        ⟨fsSet (fsSet fs (bakPath dest ts) db) dest src,
         log ++ [⟨.updated, label ++ (" (backed up -> ") ++ bakName dest ts ++ (")")⟩], 2⟩) ∧
    (∀ db, fsGet fs dest = some db → db = src →
      smart_install src dest label ts fs log = ⟨fs, log ++ [⟨.current, label⟩], 0⟩) := by
  refine ⟨fun h => by simp [smart_install, h], fun db h hne => ?_, fun db h he => ?_⟩
  · simp [smart_install, h, Ne.symm hne]
  · subst he
    simp [smart_install, h]

/-- Witness for C4: the three cases evaluated at concrete inputs. -/
theorem smart_install_cases_witness :
    smart_install ("new") [("f")] ("lbl") ("T") [] [] =
      ⟨[([("f")], ("new"))], [⟨.installed, ("lbl")⟩], 1⟩ ∧
    smart_install ("new") [("f")] ("lbl") ("T") [([("f")], ("old"))] [] =
      ⟨[([("f")], ("new")), ([("f.bak.T")], ("old"))],
       [⟨.updated, ("lbl (backed up -> f.bak.T)")⟩], 2⟩ ∧
    smart_install ("new") [("f")] ("lbl") ("T") [([("f")], ("new"))] [] =
      ⟨[([("f")], ("new"))], [⟨.current, ("lbl")⟩], 0⟩ :=
  ⟨(smart_install_cases ("new") [("f")] ("lbl") ("T") [] []).1 (by rfl),
   (smart_install_cases ("new") [("f")] ("lbl") ("T") [([("f")], ("old"))] []).2.1
     ("old") (by rfl) (by decide),
   (smart_install_cases ("new") [("f")] ("lbl") ("T") [([("f")], ("new"))] []).2.2
     ("new") (by rfl) (by rfl)⟩

/-- C5 counterexample: with a destination that already equals the source,
running `smart_install` twice performs zero mutating writes in total (not
exactly one), while the second run does emit `current`.  The claim's
"exactly one mutating filesystem write in total" is therefore false. -/
theorem smart_install_twice_not_one_write :
    (smart_install ("x") [("f")] ("lbl") ("T") [([("f")], ("x"))] []).writes +
      (smart_install ("x") [("f")] ("lbl") ("T")
        (smart_install ("x") [("f")] ("lbl") ("T") [([("f")], ("x"))] []).fs
        (smart_install ("x") [("f")] ("lbl") ("T") [([("f")], ("x"))] []).log).writes = 0 ∧
    ¬ ((smart_install ("x") [("f")] ("lbl") ("T") [([("f")], ("x"))] []).writes +
      (smart_install ("x") [("f")] ("lbl") ("T")
        (smart_install ("x") [("f")] ("lbl") ("T") [([("f")], ("x"))] []).fs
        (smart_install ("x") [("f")] ("lbl") ("T") [([("f")], ("x"))] []).log).writes = 1) := by
  decide

/-- C5 (amended): running `smart_install` twice with an unchanged source
is idempotent — the second run performs no mutating write and emits
`current` — and the total number of mutating writes of the two runs is 0,
1, or 2 according to the initial state of the destination: 0 when it
already equals the source, 1 (the copy) when it is absent, and 2 (the
backup copy plus the overwrite) when it differs. -/
theorem smart_install_idempotent (src : String) (dest : FPath) (label ts : String)
    (fs : FS) (log : Log) :
    (smart_install src dest label ts (smart_install src dest label ts fs log).fs
        (smart_install src dest label ts fs log).log).writes = 0 ∧
    (smart_install src dest label ts (smart_install src dest label ts fs log).fs
        (smart_install src dest label ts fs log).log).log
      = (smart_install src dest label ts fs log).log ++ [⟨.current, label⟩] ∧
    (smart_install src dest label ts fs log).writes +
      (smart_install src dest label ts (smart_install src dest label ts fs log).fs
        (smart_install src dest label ts fs log).log).writes
      = (match fsGet fs dest with
          | none => 1
          | some db => if db = src then 0 else 2) := by
  have hget : fsGet (smart_install src dest label ts fs log).fs dest = some src := by
    cases hd : fsGet fs dest with
    | none => simp [smart_install, hd, fsGet_fsSet_self]
    | some db =>
        by_cases hne : src = db
        · subst hne
          simp [smart_install, hd]
        · simp [smart_install, hd, hne, fsGet_fsSet_self]
  have hsecond : ∀ fs2 log2, fsGet fs2 dest = some src →
      smart_install src dest label ts fs2 log2 = ⟨fs2, log2 ++ [⟨.current, label⟩], 0⟩ := by
    intro fs2 log2 hr
    simp [smart_install, hr]
  have h2 := hsecond (smart_install src dest label ts fs log).fs
    (smart_install src dest label ts fs log).log hget
  refine ⟨by rw [h2], by rw [h2], ?_⟩
  rw [h2]
  cases hd : fsGet fs dest with
  | none => simp [smart_install, hd]
  | some db =>
      by_cases hne : src = db
      · subst hne
        simp [smart_install, hd]
      · simp [smart_install, hd, hne, Ne.symm hne]

/-- C2 counterexample: the task-template step of `run_install` overwrites
an existing destination whose text has no content (here a file holding
only a heading line) without creating any backup: afterwards the whole
filesystem is just the overwritten destination, and the original bytes
`"# notes\n"` exist nowhere — in particular in no `.bak.<ts>` sibling. -/
theorem task_template_overwrites_without_backup :
    install_task_template ("TEMPLATE") [(".claude"), ("tasks"), ("todo.md")]
        ("~/.claude/tasks/todo.md")
        [([(".claude"), ("tasks"), ("todo.md")], ("# notes\n"))] []
      = ([([(".claude"), ("tasks"), ("todo.md")], ("TEMPLATE"))],
         [⟨.installed, ("~/.claude/tasks/todo.md")⟩]) := by
  decide

/-- C2 (amended): for the destinations that `smart_install` overwrites,
`remove_with_log` removes, and a snapshot restore overwrites, the
sibling backup `<name>.bak.<timestamp>` holding the destination's
original bytes exists immediately after the operation.  (The
task-template step, by contrast, overwrites a content-less existing
destination with no backup — see the counterexample — and the settings
write backs up only an existing document that parsed to a truthy
value.) -/
theorem backup_before_overwrite (src : String) (dest : FPath) (db label ts : String)
    (fs : FS) (log : Log) (hne : dest ≠ []) :
    (fsGet fs dest = some db → db ≠ src →
      fsGet (smart_install src dest label ts fs log).fs (bakPath dest ts) = some db ∧
      fsGet (smart_install src dest label ts fs log).fs dest = some src) ∧
    (fsGet fs dest = some db →
      fsGet (remove_with_log dest label ts fs log).fs (bakPath dest ts) = some db ∧
      fsGet (remove_with_log dest label ts fs log).fs dest = none) ∧
    (∀ (root rel : FPath) (b2 db2 : String),
      underRoot root (root ++ rel) = true →
      resolvePath (root ++ rel) ≠ [] →
      fsGet fs (resolvePath (root ++ rel)) = some db2 → db2 ≠ b2 →
      fsGet (restore_snapshot root ts [(rel, b2)] fs log).1
          (bakPath (resolvePath (root ++ rel)) ts) = some db2 ∧
      fsGet (restore_snapshot root ts [(rel, b2)] fs log).1
          (resolvePath (root ++ rel)) = some b2) := by
  refine ⟨?_, ?_, ?_⟩
  · intro h hdb
    have hb := bakPath_ne dest ts hne
    simp only [smart_install, h, if_pos (Ne.symm hdb)]
    exact ⟨by rw [fsGet_fsSet_ne _ _ _ _ hb, fsGet_fsSet_self], fsGet_fsSet_self _ _ _⟩
  · intro h
    have hb := bakPath_ne dest ts hne
    simp only [remove_with_log, h]
    constructor
    · rw [fsGet_fsErase_ne _ _ _ hb, fsGet_fsSet_self]
    · exact fsGet_fsErase_self _ _
  · intro root rel b2 db2 hu hne2 hget hdb
    have hb := bakPath_ne (resolvePath (root ++ rel)) ts hne2
    simp only [restore_snapshot, hu, if_true, hget, if_neg hdb]
    exact ⟨by rw [fsGet_fsSet_ne _ _ _ _ hb, fsGet_fsSet_self], fsGet_fsSet_self _ _ _⟩

/-!
## Mandatory enforcement (C1) and snapshot-restore path containment (C3)
-/

/-- C1 counterexample: `run_install`'s rules pass acts directly on the
selection set the front-end reported.  With the mandatory rule
`security.md` installed but excluded from the selection, the install run
removes it — the engine does not reinstate missing mandatory names before
acting. -/
theorem run_install_removes_excluded_mandatory :
    ("security.md") ∈ MANDATORY_RULES ∧
    run_install_rules [⟨("security.md"), ("SRC")⟩] [] ("T")
        [([(".claude"), ("rules"), ("security.md")], ("OLD"))] []
      = ([([(".claude"), ("rules"), ("security.md.bak.T")], ("OLD"))],
         [⟨.removed, ("~/.claude/rules/security.md (backed up -> security.md.bak.T)")⟩]) := by
  decide

/-- C1 (amended): mandatory names are reinstated by the front-end
selection screens — after every toggle `enforce_mandatory` re-adds every
missing mandatory name — but `run_install` itself performs no such
re-validation: it acts on the reported selection set as-is, and an
installed item (mandatory or not) whose name is missing from that set is
removed by the rules pass. -/
theorem mandatory_enforced_in_frontend_not_engine :
    (∀ (selected : List String) (n : String), n ∈ MANDATORY_RULES →
      n ∈ enforce_mandatory selected) ∧
    (∀ (selected : List String) (name srcb db ts : String) (fs : FS) (log : Log),
      name ∉ selected → fsGet fs (CLAUDE_RULES ++ [name]) = some db →
      fsGet (run_install_rules [⟨name, srcb⟩] selected ts fs log).1
          (CLAUDE_RULES ++ [name]) = none ∧
      (run_install_rules [⟨name, srcb⟩] selected ts fs log).2 =
        log ++ [⟨.removed, ("~/.claude/rules/") ++ name ++ (" (backed up -> ")
          ++ bakName (CLAUDE_RULES ++ [name]) ts ++ (")")⟩]) := by
  constructor
  · intro selected n hn
    simp only [MANDATORY_RULES, List.mem_singleton] at hn
    subst hn
    simp only [enforce_mandatory, MANDATORY_RULES, List.foldl_cons, List.foldl_nil]
    by_cases h : ("security.md") ∈ selected
    · simp only [if_pos h]
      exact h
    · simp [h]
  · intro selected name srcb db ts fs log hsel hget
    simp only [run_install_rules, List.foldl_cons, List.foldl_nil, if_neg hsel]
    rw [remove_with_log]
    simp only [hget]
    refine ⟨fsGet_fsErase_self _ _, ?_⟩
    trivial

/-- Witness for C1 (amended): the front-end re-adds `security.md` to an
empty selection, and a run whose selection lacks `security.md` deletes
the installed rule file. -/
theorem mandatory_enforced_in_frontend_not_engine_witness :
    ("security.md") ∈ enforce_mandatory [] ∧
    fsGet (run_install_rules [⟨("security.md"), ("S")⟩] [("other.md")] ("T")
        [([(".claude"), ("rules"), ("security.md")], ("OLD"))] []).1
      (CLAUDE_RULES ++ [("security.md")]) = none :=
  ⟨mandatory_enforced_in_frontend_not_engine.1 [] ("security.md") (by decide),
   (mandatory_enforced_in_frontend_not_engine.2 [("other.md")] ("security.md") ("S")
     ("OLD") ("T") [([(".claude"), ("rules"), ("security.md")], ("OLD"))] []
     (by decide) (by decide)).1⟩

theorem isPrefixOf_append (l t : List String) : List.isPrefixOf l (l ++ t) = true := by
  induction l with
  | nil => simp [List.isPrefixOf]
  | cons x xs ih => simp [List.isPrefixOf, ih]

theorem isPrefixOf_exists (l m : List String) (h : List.isPrefixOf l m = true) :
    ∃ t, m = l ++ t := by
  induction l generalizing m with
  | nil => exact ⟨m, rfl⟩
  | cons x xs ih =>
      cases m with
      | nil => simp [List.isPrefixOf] at h
      | cons y ys =>
          simp only [List.isPrefixOf, Bool.and_eq_true, beq_iff_eq] at h
          obtain ⟨t, ht⟩ := ih ys h.2
          exact ⟨t, by rw [h.1, ht]; rfl⟩

/-- C3: snapshot-restore path containment.  First part: an entry whose
destination fails the containment check is skipped entirely — restoring
it is the same as not having it in the snapshot: no filesystem change and
no log entry come from it.  Second part: provided no entry resolves to
the target root itself (entries are files strictly below the root, as
`rglob` yields), a restore changes nothing at any path that is not under
the resolved target root. -/
theorem restore_snapshot_containment
    (root : FPath) (ts : String) (entries : List (FPath × String)) (fs : FS) (log : Log) :
    (∀ (rel : FPath) (b : String) (rest : List (FPath × String)),
      underRoot root (root ++ rel) = false →
      restore_snapshot root ts ((rel, b) :: rest) fs log =
        restore_snapshot root ts rest fs log) ∧
    ((∀ e ∈ entries, resolvePath (root ++ e.1) ≠ resolvePath root) →
      ∀ q, List.isPrefixOf (resolvePath root) q = false →
        fsGet (restore_snapshot root ts entries fs log).1 q = fsGet fs q) := by
  constructor
  · intro rel b rest hu
    simp [restore_snapshot, hu]
  · intro hroot
    induction entries generalizing fs log with
    | nil => intro q hq; rfl
    | cons e rest ih =>
        obtain ⟨rel, b⟩ := e
        intro q hq
        have hrest : ∀ e ∈ rest, resolvePath (root ++ e.1) ≠ resolvePath root :=
          fun e he => hroot e (List.mem_cons_of_mem _ he)
        by_cases hu : underRoot root (root ++ rel)
        · have hpre := isPrefixOf_exists _ _ hu
          obtain ⟨t, ht⟩ := hpre
          have htne : t ≠ [] := by
            intro h0
            exact hroot (rel, b) (List.mem_cons_self _ _) (by rw [ht, h0, List.append_nil])
          have hqd : q ≠ resolvePath (root ++ rel) := by
            intro h0
            rw [h0, ht, isPrefixOf_append] at hq
            exact Bool.noConfusion hq
          have hqb : q ≠ bakPath (resolvePath (root ++ rel)) ts := by
            intro h0
            have : bakPath (resolvePath (root ++ rel)) ts =
                resolvePath root ++ (t.dropLast ++ [bakName (resolvePath (root ++ rel)) ts]) := by
              rw [bakPath, ht, List.dropLast_append_of_ne_nil _ htne, List.append_assoc]
            rw [h0, this, isPrefixOf_append] at hq
            exact Bool.noConfusion hq
          simp only [restore_snapshot, hu, if_true]
          cases hd : fsGet fs (resolvePath (root ++ rel)) with
          | none =>
              rw [ih _ _ hrest q hq, fsGet_fsSet_ne _ _ _ _ hqd]
          | some db =>
              by_cases heq : db = b
              · simp only [heq, if_pos rfl]
                exact ih _ _ hrest q hq
              · simp only [if_neg heq]
                rw [ih _ _ hrest q hq, fsGet_fsSet_ne _ _ _ _ hqd,
                  fsGet_fsSet_ne _ _ _ _ hqb]
        · simp only [Bool.not_eq_true] at hu
          simp only [restore_snapshot, hu, if_false]
          exact ih _ _ hrest q hq

/-- Witness for C3: an entry with relative path `../../etc/passwd` under
the target root `/home/.claude` is skipped — the restore returns the
filesystem and log unchanged, and `/etc/passwd` keeps its bytes. -/
theorem restore_snapshot_containment_witness :
    restore_snapshot [("home"), (".claude")] ("T")
        [([(".."), (".."), ("etc"), ("passwd")], ("pw"))]
        [([("etc"), ("passwd")], ("orig"))] []
      = ([([("etc"), ("passwd")], ("orig"))], []) ∧
    fsGet (restore_snapshot [("home"), (".claude")] ("T")
        [([(".."), (".."), ("etc"), ("passwd")], ("pw"))]
        [([("etc"), ("passwd")], ("orig"))] []).1 [("etc"), ("passwd")]
      = some ("orig") := by
  have h1 := (restore_snapshot_containment [("home"), (".claude")] ("T")
    [([(".."), (".."), ("etc"), ("passwd")], ("pw"))]
    [([("etc"), ("passwd")], ("orig"))] []).1
    [(".."), (".."), ("etc"), ("passwd")] ("pw") [] (by decide)
  have h2 := (restore_snapshot_containment [("home"), (".claude")] ("T")
    [([(".."), (".."), ("etc"), ("passwd")], ("pw"))]
    [([("etc"), ("passwd")], ("orig"))] []).2
    (by decide) [("etc"), ("passwd")] (by decide)
  exact ⟨h1, by rw [h2]; rfl⟩

/-- Witness for C2 (amended): after an update of `f`, after a removal of
`f`, and after a snapshot restore that overwrites `home/f`, the backup
sibling holds the old bytes. -/
theorem backup_before_overwrite_witness :
    fsGet (smart_install ("new") [("f")] ("lbl") ("T") [([("f")], ("old"))] []).fs
        (bakPath [("f")] ("T")) = some ("old") ∧
    fsGet (remove_with_log [("f")] ("lbl") ("T") [([("f")], ("old"))] []).fs [("f")] = none ∧
    fsGet (restore_snapshot [("home")] ("T") [([("f")], ("new"))]
        [([("home"), ("f")], ("old"))] []).1 (bakPath [("home"), ("f")] ("T"))
      = some ("old") :=
  ⟨((backup_before_overwrite ("new") [("f")] ("old") ("lbl") ("T") [([("f")], ("old"))] []
      (by decide)).1 (by rfl) (by decide)).1,
   ((backup_before_overwrite ("new") [("f")] ("old") ("lbl") ("T") [([("f")], ("old"))] []
      (by decide)).2.1 (by rfl)).2,
   ((backup_before_overwrite ("x") [("x")] ("x") ("x") ("T")
      [([("home"), ("f")], ("old"))] [] (by decide)).2.2 [("home")] [("f")]
      ("new") ("old") (by decide) (by decide) (by rfl) (by decide)).1⟩

/-!
## Properties of `deep_merge_settings` (C6)
-/

theorem objGet_objSet_self (o : JObj) (k : String) (v : JValue) :
    objGet (objSet o k v) k = some v := by
  induction o with
  | nil => simp [objSet, objGet]
  | cons e rest ih =>
      obtain ⟨k1, v1⟩ := e
      by_cases h : k1 = k
      · simp [objSet, objGet, h]
      · simp [objSet, objGet, h, ih]

theorem objGet_objSet_ne (o : JObj) (k kq : String) (v : JValue) (h : kq ≠ k) :
    objGet (objSet o k v) kq = objGet o kq := by
  induction o with
  | nil =>
      have : ¬ (k = kq) := fun hh => h hh.symm
      simp [objSet, objGet, this]
  | cons e rest ih =>
      obtain ⟨k1, v1⟩ := e
      by_cases h1 : k1 = k
      · subst h1
        have : ¬ (k1 = kq) := fun hh => h hh.symm
        simp [objSet, objGet, this]
      · by_cases hq : k1 = kq
        · simp [objSet, objGet, h1, hq, h]
        · simp [objSet, objGet, h1, hq, ih]

theorem objGet_none_of_not_mem (o : JObj) (k : String) (h : k ∉ o.map Prod.fst) :
    objGet o k = none := by
  induction o with
  | nil => rfl
  | cons e rest ih =>
      obtain ⟨k1, v1⟩ := e
      simp only [List.map_cons, List.mem_cons] at h
      push_neg at h
      have h1 : ¬ (k1 = k) := fun hh => h.1 hh.symm
      simp [objGet, h1, ih h.2]

theorem objGet_isSome_of_mem (o : JObj) (k : String) (h : k ∈ o.map Prod.fst) :
    (objGet o k).isSome := by
  induction o with
  | nil => simp at h
  | cons e rest ih =>
      obtain ⟨k1, v1⟩ := e
      by_cases h1 : k1 = k
      · simp [objGet, h1]
      · simp only [List.map_cons, List.mem_cons] at h
        rcases h with h | h
        · exact absurd h.symm h1
        · simp [objGet, h1, ih h]

/-- The per-key result of one overlay iteration, as a value function:
mapping/mapping recurses, list/list de-duplicates, anything else is the
overlay value. -/
def mergeOneVal : Option JValue → JValue → JValue
  | some (.obj bo), .obj oo => .obj (deep_merge_settings bo oo)
  | some (.arr bl), .arr ol => .arr (dedupeAppend bl ol)
  | _, v => v

theorem objGet_mergeEntry_self (base : JObj) (k : String) (v : JValue) :
    objGet (mergeEntry base k v) k = some (mergeOneVal (objGet base k) v) := by
  cases v with
  | obj oo =>
      cases hb : objGet base k with
      | none => simp [mergeEntry, mergeOneVal, hb, objGet_objSet_self]
      | some bv => cases bv <;> simp [mergeEntry, mergeOneVal, hb, objGet_objSet_self]
  | arr ol =>
      cases hb : objGet base k with
      | none => simp [mergeEntry, mergeOneVal, hb, objGet_objSet_self]
      | some bv => cases bv <;> simp [mergeEntry, mergeOneVal, hb, objGet_objSet_self]
  | str s =>
      cases hb : objGet base k with
      | none => simp [mergeEntry, mergeOneVal, hb, objGet_objSet_self]
      | some bv => cases bv <;> simp [mergeEntry, mergeOneVal, hb, objGet_objSet_self]
  | num n =>
      cases hb : objGet base k with
      | none => simp [mergeEntry, mergeOneVal, hb, objGet_objSet_self]
      | some bv => cases bv <;> simp [mergeEntry, mergeOneVal, hb, objGet_objSet_self]
  | bool b =>
      cases hb : objGet base k with
      | none => simp [mergeEntry, mergeOneVal, hb, objGet_objSet_self]
      | some bv => cases bv <;> simp [mergeEntry, mergeOneVal, hb, objGet_objSet_self]
  | null =>
      cases hb : objGet base k with
      | none => simp [mergeEntry, mergeOneVal, hb, objGet_objSet_self]
      | some bv => cases bv <;> simp [mergeEntry, mergeOneVal, hb, objGet_objSet_self]

theorem objGet_mergeEntry_ne (base : JObj) (k : String) (v : JValue) (kq : String)
    (h : kq ≠ k) : objGet (mergeEntry base k v) kq = objGet base kq := by
  cases v with
  | obj oo =>
      cases hb : objGet base k with
      | none => simp [mergeEntry, hb, objGet_objSet_ne _ _ _ _ h]
      | some bv => cases bv <;> simp [mergeEntry, hb, objGet_objSet_ne _ _ _ _ h]
  | arr ol =>
      cases hb : objGet base k with
      | none => simp [mergeEntry, hb, objGet_objSet_ne _ _ _ _ h]
      | some bv => cases bv <;> simp [mergeEntry, hb, objGet_objSet_ne _ _ _ _ h]
  | str s => simp [mergeEntry, objGet_objSet_ne _ _ _ _ h]
  | num n => simp [mergeEntry, objGet_objSet_ne _ _ _ _ h]
  | bool b => simp [mergeEntry, objGet_objSet_ne _ _ _ _ h]
  | null => simp [mergeEntry, objGet_objSet_ne _ _ _ _ h]

theorem dms_nil (base : JObj) : deep_merge_settings base [] = base := rfl

theorem dms_cons (base : JObj) (k : String) (v : JValue) (rest : JObj) :
    deep_merge_settings base ((k, v) :: rest) =
      deep_merge_settings (mergeEntry base k v) rest := rfl

/-- The per-key behaviour of `deep_merge_settings`, for an overlay with
no duplicate keys (as produced by a Python `dict`). -/
theorem dms_objGet (overlay : JObj) (base : JObj) (k : String)
    (hnd : (overlay.map Prod.fst).Nodup) :
    objGet (deep_merge_settings base overlay) k =
      match objGet overlay k with
      | none => objGet base k
      | some v => some (mergeOneVal (objGet base k) v) := by
  induction overlay generalizing base with
  | nil => simp [dms_nil, objGet]
  | cons e rest ih =>
      obtain ⟨k1, v1⟩ := e
      rw [dms_cons]
      simp only [List.map_cons, List.nodup_cons] at hnd
      by_cases hk : k1 = k
      · subst hk
        have hnone : objGet rest k1 = none := objGet_none_of_not_mem rest k1 hnd.1
        rw [ih (mergeEntry base k1 v1) hnd.2]
        simp [objGet, hnone, objGet_mergeEntry_self]
      · have hov : objGet ((k1, v1) :: rest) k = objGet rest k := by simp [objGet, hk]
        rw [ih (mergeEntry base k1 v1) hnd.2, hov,
          objGet_mergeEntry_ne base k1 v1 k (fun hh => hk hh.symm)]

theorem dms_preserves_isSome (overlay : JObj) (base : JObj) (k : String)
    (h : (objGet base k).isSome) :
    (objGet (deep_merge_settings base overlay) k).isSome := by
  induction overlay generalizing base with
  | nil => simpa [dms_nil] using h
  | cons e rest ih =>
      obtain ⟨k1, v1⟩ := e
      rw [dms_cons]
      apply ih
      by_cases hk : k = k1
      · subst hk
        simp [objGet_mergeEntry_self]
      · rwa [objGet_mergeEntry_ne base k1 v1 k hk]

theorem dms_overlay_key_isSome (overlay : JObj) (base : JObj) (k : String)
    (h : k ∈ overlay.map Prod.fst) :
    (objGet (deep_merge_settings base overlay) k).isSome := by
  induction overlay generalizing base with
  | nil => simp at h
  | cons e rest ih =>
      obtain ⟨k1, v1⟩ := e
      rw [dms_cons]
      by_cases hk : k = k1
      · subst hk
        apply dms_preserves_isSome
        simp [objGet_mergeEntry_self]
      · simp only [List.map_cons, List.mem_cons] at h
        rcases h with h | h
        · exact absurd h hk
        · exact ih (mergeEntry base k1 v1) h

/-- Spec-side de-duplication, written from the spec's words: each overlay
element is appended only if not already present, with first-occurrence
order preserved. -/
def specDedup : List JValue → List JValue → List JValue
  | _, [] => []
  | seen, x :: rest =>
      if x ∈ seen then specDedup seen rest else x :: specDedup (seen ++ [x]) rest

/-- Spec-side list merge: base first, then the de-duplicated new overlay
elements. -/
def specListMerge (b o : List JValue) : List JValue := b ++ specDedup b o

theorem dedupeAppend_cons (b : List JValue) (x : JValue) (rest : List JValue) :
    dedupeAppend b (x :: rest) =
      dedupeAppend (if x ∈ b then b else b ++ [x]) rest := rfl

theorem dedupeAppend_eq_specListMerge (o b : List JValue) :
    dedupeAppend b o = specListMerge b o := by
  induction o generalizing b with
  | nil => simp [dedupeAppend, specListMerge, specDedup]
  | cons x rest ih =>
      rw [dedupeAppend_cons]
      by_cases hx : x ∈ b
      · simp only [if_pos hx, ih, specListMerge, specDedup, hx, if_true]
      · simp only [if_neg hx, ih, specListMerge, specDedup, hx, if_false]
        rw [List.append_assoc]
        rfl

theorem mem_dedupeAppend_left (o b : List JValue) (x : JValue) (hx : x ∈ b) :
    x ∈ dedupeAppend b o := by
  induction o generalizing b with
  | nil => simpa [dedupeAppend] using hx
  | cons y rest ih =>
      rw [dedupeAppend_cons]
      by_cases hy : y ∈ b
      · simp only [if_pos hy]
        exact ih b hx
      · simp only [if_neg hy]
        exact ih (b ++ [y]) (List.mem_append_left _ hx)

theorem mem_dedupeAppend_right (o b : List JValue) (x : JValue) (hx : x ∈ o) :
    x ∈ dedupeAppend b o := by
  induction o generalizing b with
  | nil => simp at hx
  | cons y rest ih =>
      rw [dedupeAppend_cons]
      rcases List.mem_cons.mp hx with h | h
      · subst h
        by_cases hy : x ∈ b
        · simp only [if_pos hy]
          exact mem_dedupeAppend_left rest b x hy
        · simp only [if_neg hy]
          exact mem_dedupeAppend_left rest (b ++ [x]) x (List.mem_append_right _ (by simp))
      · by_cases hy : y ∈ b
        · simp only [if_pos hy]
          exact ih b h
        · simp only [if_neg hy]
          exact ih (b ++ [y]) h

/-- C6: the key-level specification of `deep_merge_settings` for inputs
with Python-`dict` (duplicate-free) keys: every key of either input is
present in the result; a key mapped to mappings in both recurses; a key
mapped to lists in both yields the base list followed by the overlay's
new elements, de-duplicated by value equality in first-occurrence order
(`specListMerge`, a direct transcription of the spec's words); any other
key present in the overlay takes the overlay's value; and concretely
merging `[a, b]` with `[b, c]` yields `[a, b, c]`. -/
theorem deep_merge_settings_spec (base overlay : JObj)
    (hnd : (overlay.map Prod.fst).Nodup) :
    (∀ k, ((objGet base k).isSome ∨ (objGet overlay k).isSome) →
        (objGet (deep_merge_settings base overlay) k).isSome) ∧
    (∀ k bo oo, objGet base k = some (.obj bo) → objGet overlay k = some (.obj oo) →
        objGet (deep_merge_settings base overlay) k =
          some (.obj (deep_merge_settings bo oo))) ∧
    (∀ k bl ol, objGet base k = some (.arr bl) → objGet overlay k = some (.arr ol) →
        objGet (deep_merge_settings base overlay) k = some (.arr (specListMerge bl ol))) ∧
    (∀ k v, objGet overlay k = some v →
        (match objGet base k, v with
          | some (.obj _), .obj _ => False
          | some (.arr _), .arr _ => False
          | _, _ => True) →
        objGet (deep_merge_settings base overlay) k = some v) ∧
    deep_merge_settings [(("k" : String), .arr [.str ("a"), .str ("b")])]
        [(("k" : String), .arr [.str ("b"), .str ("c")])]
      = [(("k" : String), .arr [.str ("a"), .str ("b"), .str ("c")])] := by
  refine ⟨?_, ?_, ?_, ?_, by decide⟩
  · intro k hk
    rcases hk with h | h
    · exact dms_preserves_isSome overlay base k h
    · rw [dms_objGet overlay base k hnd]
      cases ho : objGet overlay k with
      | none => rw [ho] at h; simp at h
      | some v => simp
  · intro k bo oo hb ho
    rw [dms_objGet overlay base k hnd, ho, hb]
    rfl
  · intro k bl ol hb ho
    rw [dms_objGet overlay base k hnd, ho, hb]
    simp [mergeOneVal, dedupeAppend_eq_specListMerge]
  · intro k v ho hshape
    rw [dms_objGet overlay base k hnd, ho]
    cases hb : objGet base k with
    | none => cases v <;> rfl
    | some bv =>
        rw [hb] at hshape
        cases bv <;> cases v <;> first | rfl | exact absurd hshape (by simp)

/-- Witness for C6: scalar replacement and the list merge, at concrete
documents. -/
theorem deep_merge_settings_spec_witness :
    objGet (deep_merge_settings [(("m" : String), .str ("x"))]
        [(("m" : String), .str ("y"))]) ("m") = some (.str ("y")) ∧
    objGet (deep_merge_settings [(("l" : String), .arr [.num 1])]
        [(("l" : String), .arr [.num 1, .num 2])]) ("l")
      = some (.arr (specListMerge [.num 1] [.num 1, .num 2])) :=
  ⟨(deep_merge_settings_spec [(("m" : String), .str ("x"))]
      [(("m" : String), .str ("y"))] (by decide)).2.2.2.1 ("m") (.str ("y"))
      (by decide) (by trivial),
   (deep_merge_settings_spec [(("l" : String), .arr [.num 1])]
      [(("l" : String), .arr [.num 1, .num 2])] (by decide)).2.2.1 ("l")
      [.num 1] [.num 1, .num 2] (by decide) (by decide)⟩

/-!
## Template-authoritative parts of `install_global_settings` (C7)
-/

/-- The permissions sub-object of a document, when it is an object. -/
def permsOf (m : JObj) : Option JObj :=
  match objGet m ("permissions") with
  | some (.obj p) => some p
  | _ => none

/-- Lookup inside the permissions sub-object. -/
def oGetPerm (m : JObj) (kq : String) : Option JValue :=
  match permsOf m with
  | some p => objGet p kq
  | none => none

theorem permsOf_objSet_perm (m : JObj) (p : JObj) :
    permsOf (objSet m ("permissions") (.obj p)) = some p := by
  simp [permsOf, objGet_objSet_self]

theorem permListStep_oGetPerm_ne (tperm : JObj) (k : String) (merged m' : JObj)
    (h : permListStep tperm k merged = some m') (kq : String) (hq : kq ≠ k) :
    oGetPerm m' kq = oGetPerm merged kq := by
  unfold permListStep at h
  split at h
  · obtain rfl := Option.some.inj h
    rfl
  · rename_i tl _
    split at h
    · rename_i hm
      obtain rfl := Option.some.inj h
      simp only [oGetPerm, permsOf_objSet_perm]
      rw [objGet_objSet_ne _ _ _ _ hq]
      simp [oGetPerm, permsOf, hm, objGet]
    · rename_i p hm
      split at h
      · rename_i hpk
        obtain rfl := Option.some.inj h
        simp only [oGetPerm, permsOf_objSet_perm]
        rw [objGet_objSet_ne _ _ _ _ hq]
        simp [oGetPerm, permsOf, hm]
      · rename_i bl hpk
        obtain rfl := Option.some.inj h
        simp only [oGetPerm, permsOf_objSet_perm]
        rw [objGet_objSet_ne _ _ _ _ hq]
        simp [oGetPerm, permsOf, hm]
      · exact absurd h (by simp)
    · exact absurd h (by simp)
  · exact absurd h (by simp)

theorem permListStep_oGetPerm_self (tperm : JObj) (k : String) (merged m' : JObj)
    (tl : List JValue) (ht : objGet tperm k = some (.arr tl))
    (h : permListStep tperm k merged = some m') :
    ∃ bl, oGetPerm m' k = some (.arr (dedupeAppend bl tl)) := by
  unfold permListStep at h
  split at h
  · rename_i hm
    rw [ht] at hm
    exact absurd hm (by simp)
  · rename_i tl2 hm
    rw [ht] at hm
    obtain rfl : tl = tl2 := JValue.arr.inj (Option.some.inj hm)
    split at h
    · obtain rfl := Option.some.inj h
      exact ⟨[], by simp only [oGetPerm, permsOf_objSet_perm]; rw [objGet_objSet_self]⟩
    · split at h
      · obtain rfl := Option.some.inj h
        exact ⟨[], by simp only [oGetPerm, permsOf_objSet_perm]; rw [objGet_objSet_self]⟩
      · rename_i bl hpk
        obtain rfl := Option.some.inj h
        exact ⟨bl, by simp only [oGetPerm, permsOf_objSet_perm]; rw [objGet_objSet_self]⟩
      · exact absurd h (by simp)
    · exact absurd h (by simp)
  · rename_i hv
    exact absurd h (by simp)

theorem permListStep_outer (tperm : JObj) (k : String) (merged m' : JObj)
    (h : permListStep tperm k merged = some m') (kq : String)
    (hq : kq ≠ ("permissions")) :
    objGet m' kq = objGet merged kq := by
  unfold permListStep at h
  split at h
  · obtain rfl := Option.some.inj h
    rfl
  · split at h
    · obtain rfl := Option.some.inj h
      exact objGet_objSet_ne _ _ _ _ hq
    · split at h
      · obtain rfl := Option.some.inj h
        exact objGet_objSet_ne _ _ _ _ hq
      · obtain rfl := Option.some.inj h
        exact objGet_objSet_ne _ _ _ _ hq
      · exact absurd h (by simp)
    · exact absurd h (by simp)
  · exact absurd h (by simp)

theorem permScalarStep_oGetPerm_ne (tperm : JObj) (k : String) (merged m' : JObj)
    (h : permScalarStep tperm k merged = some m') (kq : String) (hq : kq ≠ k) :
    oGetPerm m' kq = oGetPerm merged kq := by
  unfold permScalarStep at h
  split at h
  · obtain rfl := Option.some.inj h
    rfl
  · split at h
    · rename_i hm
      obtain rfl := Option.some.inj h
      simp only [oGetPerm, permsOf_objSet_perm]
      rw [objGet_objSet_ne _ _ _ _ hq]
      simp [oGetPerm, permsOf, hm, objGet]
    · rename_i p hm
      obtain rfl := Option.some.inj h
      simp only [oGetPerm, permsOf_objSet_perm]
      rw [objGet_objSet_ne _ _ _ _ hq]
      simp [oGetPerm, permsOf, hm]
    · exact absurd h (by simp)

theorem permScalarStep_oGetPerm_self (tperm : JObj) (k : String) (merged m' : JObj)
    (v : JValue) (ht : objGet tperm k = some v)
    (h : permScalarStep tperm k merged = some m') :
    oGetPerm m' k = some v := by
  unfold permScalarStep at h
  split at h
  · rename_i hm
    rw [ht] at hm
    exact absurd hm (by simp)
  · rename_i v2 hm
    rw [ht] at hm
    obtain rfl : v = v2 := Option.some.inj hm
    split at h
    · obtain rfl := Option.some.inj h
      simp only [oGetPerm, permsOf_objSet_perm]
      rw [objGet_objSet_self]
    · obtain rfl := Option.some.inj h
      simp only [oGetPerm, permsOf_objSet_perm]
      rw [objGet_objSet_self]
    · exact absurd h (by simp)

theorem permScalarStep_outer (tperm : JObj) (k : String) (merged m' : JObj)
    (h : permScalarStep tperm k merged = some m') (kq : String)
    (hq : kq ≠ ("permissions")) :
    objGet m' kq = objGet merged kq := by
  unfold permScalarStep at h
  split at h
  · obtain rfl := Option.some.inj h
    rfl
  · split at h
    · obtain rfl := Option.some.inj h
      exact objGet_objSet_ne _ _ _ _ hq
    · obtain rfl := Option.some.inj h
      exact objGet_objSet_ne _ _ _ _ hq
    · exact absurd h (by simp)

theorem injectModel_get_ne (doc : JObj) (mv : Option String) (kq : String)
    (h : kq ≠ ("model")) : objGet (injectModel doc mv) kq = objGet doc kq := by
  cases mv with
  | none => rfl
  | some m => exact objGet_objSet_ne _ _ _ _ h

theorem injectModel_get_model (doc : JObj) (m : String) :
    objGet (injectModel doc (some m)) ("model") = some (.str m) :=
  objGet_objSet_self _ _ _

theorem envStage_env (tmpl merged m1 : JObj) (tenv : JObj)
    (ht : objGet tmpl ("env") = some (.obj tenv))
    (h : envStage tmpl merged = some m1) :
    ∃ b0, objGet m1 ("env") = some (.obj (deep_merge_settings b0 tenv)) := by
  unfold envStage at h
  split at h
  · rename_i hm
    rw [ht] at hm
    exact absurd hm (by simp)
  · rename_i tenv2 hm
    rw [ht] at hm
    obtain rfl : tenv = tenv2 := JValue.obj.inj (Option.some.inj hm)
    split at h
    · obtain rfl := Option.some.inj h
      exact ⟨[], objGet_objSet_self _ _ _⟩
    · rename_i menv hm2
      obtain rfl := Option.some.inj h
      exact ⟨menv, objGet_objSet_self _ _ _⟩
    · exact absurd h (by simp)
  · exact absurd h (by simp)

theorem permStage_outer (tmpl merged m2 : JObj)
    (h : permStage tmpl merged = some m2) (kq : String) (hq : kq ≠ ("permissions")) :
    objGet m2 kq = objGet merged kq := by
  unfold permStage at h
  split at h
  · obtain rfl := Option.some.inj h
    rfl
  · obtain ⟨a1, h1, hrest⟩ := Option.bind_eq_some.mp h
    obtain ⟨a2, h2, hrest⟩ := Option.bind_eq_some.mp hrest
    obtain ⟨a3, h3, hrest⟩ := Option.bind_eq_some.mp hrest
    obtain ⟨a4, h4, h5⟩ := Option.bind_eq_some.mp hrest
    rw [permScalarStep_outer _ _ _ _ h5 kq hq,
        permScalarStep_outer _ _ _ _ h4 kq hq,
        permListStep_outer _ _ _ _ h3 kq hq,
        permListStep_outer _ _ _ _ h2 kq hq,
        permListStep_outer _ _ _ _ h1 kq hq]
  · exact absurd h (by simp)

theorem oGetPerm_eq_some (m : JObj) (kq : String) (v : JValue)
    (h : oGetPerm m kq = some v) :
    ∃ p, objGet m ("permissions") = some (.obj p) ∧ objGet p kq = some v := by
  unfold oGetPerm permsOf at h
  cases hp : objGet m ("permissions") with
  | none =>
      rw [hp] at h
      exact Option.noConfusion h
  | some pv =>
      rw [hp] at h
      cases pv with
      | obj p => exact ⟨p, rfl, h⟩
      | str s => exact Option.noConfusion h
      | num n => exact Option.noConfusion h
      | bool b => exact Option.noConfusion h
      | null => exact Option.noConfusion h
      | arr xs => exact Option.noConfusion h

/-- C7: the template-authoritative parts of the settings merge.  For any
successful run of the merge pipeline of `install_global_settings`: every
element of the template's `permissions.allow`/`deny`/`ask` lists is
present in the corresponding merged list; the scalar permission keys
`defaultMode` and `disableBypassPermissionsMode`, when present in the
template's permissions, carry exactly the template's values; every key of
the template's `env` object is present in the merged `env` object; and a
selected default-model token sets the merged `model` to the template-side
injected value. -/
theorem install_global_settings_template_authoritative
    (template existing : JObj) (modelVal : Option String) (merged : JObj)
    (h : install_global_merge template existing modelVal = some merged) :
    (∀ pk, pk ∈ [("allow" : String), ("deny"), ("ask")] →
      ∀ tperm tl, objGet template ("permissions") = some (.obj tperm) →
        objGet tperm pk = some (.arr tl) →
        ∃ p ml, objGet merged ("permissions") = some (.obj p) ∧
          objGet p pk = some (.arr ml) ∧ ∀ x ∈ tl, x ∈ ml) ∧
    (∀ sk, sk ∈ [("defaultMode" : String), ("disableBypassPermissionsMode")] →
      ∀ tperm v, objGet template ("permissions") = some (.obj tperm) →
        objGet tperm sk = some v →
        ∃ p, objGet merged ("permissions") = some (.obj p) ∧ objGet p sk = some v) ∧
    (∀ tenv, objGet template ("env") = some (.obj tenv) →
      ∃ menv, objGet merged ("env") = some (.obj menv) ∧
        ∀ k ∈ tenv.map Prod.fst, (objGet menv k).isSome) ∧
    (∀ m, modelVal = some m → objGet merged ("model") = some (.str m)) := by
  unfold install_global_merge at h
  obtain ⟨m1, henv, hrest⟩ := Option.bind_eq_some.mp h
  obtain ⟨m2, hperm, hfin⟩ := Option.map_eq_some'.mp hrest
  subst hfin
  have hpstage : ∀ tperm, objGet template ("permissions") = some (.obj tperm) →
      ∃ a1 a2 a3 a4, permListStep tperm ("allow") m1 = some a1 ∧
        permListStep tperm ("deny") a1 = some a2 ∧
        permListStep tperm ("ask") a2 = some a3 ∧
        permScalarStep tperm ("defaultMode") a3 = some a4 ∧
        permScalarStep tperm ("disableBypassPermissionsMode") a4 = some m2 := by
    intro tperm htp
    have htp' : objGet (injectModel template modelVal) ("permissions") =
        some (.obj tperm) := by
      rw [injectModel_get_ne _ _ _ (by decide), htp]
    unfold permStage at hperm
    split at hperm
    · rename_i hm
      rw [htp'] at hm
      exact absurd hm (by simp)
    · rename_i tperm2 hm
      rw [htp'] at hm
      obtain rfl : tperm = tperm2 := JValue.obj.inj (Option.some.inj hm)
      obtain ⟨a1, h1, hrest2⟩ := Option.bind_eq_some.mp hperm
      obtain ⟨a2, h2, hrest2⟩ := Option.bind_eq_some.mp hrest2
      obtain ⟨a3, h3, hrest2⟩ := Option.bind_eq_some.mp hrest2
      obtain ⟨a4, h4, h5⟩ := Option.bind_eq_some.mp hrest2
      exact ⟨a1, a2, a3, a4, h1, h2, h3, h4, h5⟩
    · rename_i val hno hm
      rw [htp'] at hm
      exact absurd (Option.some.inj hm).symm (hno tperm)
  have hmergedPerm : objGet (injectModel m2 modelVal) ("permissions") =
      objGet m2 ("permissions") := injectModel_get_ne _ _ _ (by decide)
  refine ⟨?_, ?_, ?_, ?_⟩
  · intro pk hpk tperm tl htp htl
    obtain ⟨a1, a2, a3, a4, h1, h2, h3, h4, h5⟩ := hpstage tperm htp
    have hfinal : ∃ bl, oGetPerm m2 pk = some (.arr (dedupeAppend bl tl)) := by
      rcases List.mem_cons.mp hpk with rfl | hpk
      · obtain ⟨bl, hb⟩ := permListStep_oGetPerm_self _ _ _ _ tl htl h1
        refine ⟨bl, ?_⟩
        rw [permScalarStep_oGetPerm_ne _ _ _ _ h5 _ (by decide),
            permScalarStep_oGetPerm_ne _ _ _ _ h4 _ (by decide),
            permListStep_oGetPerm_ne _ _ _ _ h3 _ (by decide),
            permListStep_oGetPerm_ne _ _ _ _ h2 _ (by decide)]
        exact hb
      rcases List.mem_cons.mp hpk with rfl | hpk
      · obtain ⟨bl, hb⟩ := permListStep_oGetPerm_self _ _ _ _ tl htl h2
        refine ⟨bl, ?_⟩
        rw [permScalarStep_oGetPerm_ne _ _ _ _ h5 _ (by decide),
            permScalarStep_oGetPerm_ne _ _ _ _ h4 _ (by decide),
            permListStep_oGetPerm_ne _ _ _ _ h3 _ (by decide)]
        exact hb
      rcases List.mem_cons.mp hpk with rfl | hpk
      · obtain ⟨bl, hb⟩ := permListStep_oGetPerm_self _ _ _ _ tl htl h3
        refine ⟨bl, ?_⟩
        rw [permScalarStep_oGetPerm_ne _ _ _ _ h5 _ (by decide),
            permScalarStep_oGetPerm_ne _ _ _ _ h4 _ (by decide)]
        exact hb
      · simp at hpk
    obtain ⟨bl, hb⟩ := hfinal
    obtain ⟨p, hp, hpk2⟩ := oGetPerm_eq_some _ _ _ hb
    exact ⟨p, dedupeAppend bl tl, by rw [hmergedPerm]; exact hp, hpk2,
      fun x hx => mem_dedupeAppend_right _ _ _ hx⟩
  · intro sk hsk tperm v htp htv
    obtain ⟨a1, a2, a3, a4, h1, h2, h3, h4, h5⟩ := hpstage tperm htp
    have hfinal : oGetPerm m2 sk = some v := by
      rcases List.mem_cons.mp hsk with rfl | hsk
      · rw [permScalarStep_oGetPerm_ne _ _ _ _ h5 _ (by decide)]
        exact permScalarStep_oGetPerm_self _ _ _ _ v htv h4
      rcases List.mem_cons.mp hsk with rfl | hsk
      · exact permScalarStep_oGetPerm_self _ _ _ _ v htv h5
      · simp at hsk
    obtain ⟨p, hp, hpk2⟩ := oGetPerm_eq_some _ _ _ hfinal
    exact ⟨p, by rw [hmergedPerm]; exact hp, hpk2⟩
  · intro tenv htenv
    have htenv' : objGet (injectModel template modelVal) ("env") = some (.obj tenv) := by
      rw [injectModel_get_ne _ _ _ (by decide), htenv]
    obtain ⟨b0, hm1⟩ := envStage_env _ _ _ _ htenv' henv
    refine ⟨deep_merge_settings b0 tenv, ?_, ?_⟩
    · rw [injectModel_get_ne _ _ _ (by decide),
        permStage_outer _ _ _ hperm _ (by decide)]
      exact hm1
    · intro k hk
      exact dms_overlay_key_isSome tenv b0 k hk
  · intro m hm
    subst hm
    exact injectModel_get_model _ _

/-- Witness for C7, at the spec's scenario: existing
`{"model":"x","permissions":{"allow":["Read"]}}`, template
`{"model":"y","permissions":{"allow":["Read","Grep"]}}`, model token
selecting `y`: the merged document has `permissions.allow` containing
`Read` and `Grep`, and `model == "y"`. -/
theorem install_global_settings_template_authoritative_witness :
    (∃ p ml,
      objGet [(("model" : String), JValue.str ("y")),
        (("permissions" : String), JValue.obj
          [(("allow" : String), JValue.arr [JValue.str ("Read"), JValue.str ("Grep")])])]
        ("permissions") = some (.obj p) ∧
      objGet p ("allow") = some (.arr ml) ∧
      ∀ x ∈ [JValue.str ("Read"), JValue.str ("Grep")], x ∈ ml) ∧
    objGet [(("model" : String), JValue.str ("y")),
        (("permissions" : String), JValue.obj
          [(("allow" : String), JValue.arr [JValue.str ("Read"), JValue.str ("Grep")])])]
      ("model") = some (.str ("y")) :=
  ⟨(install_global_settings_template_authoritative
      [(("model" : String), JValue.str ("y")),
        (("permissions" : String), JValue.obj
          [(("allow" : String), JValue.arr [JValue.str ("Read"), JValue.str ("Grep")])])]
      [(("model" : String), JValue.str ("x")),
        (("permissions" : String), JValue.obj
          [(("allow" : String), JValue.arr [JValue.str ("Read")])])]
      (some ("y"))
      [(("model" : String), JValue.str ("y")),
        (("permissions" : String), JValue.obj
          [(("allow" : String), JValue.arr [JValue.str ("Read"), JValue.str ("Grep")])])]
      (by decide)).1 ("allow") (by decide)
      [(("allow" : String), JValue.arr [JValue.str ("Read"), JValue.str ("Grep")])]
      [JValue.str ("Read"), JValue.str ("Grep")] (by decide) (by decide),
   (install_global_settings_template_authoritative
      [(("model" : String), JValue.str ("y")),
        (("permissions" : String), JValue.obj
          [(("allow" : String), JValue.arr [JValue.str ("Read"), JValue.str ("Grep")])])]
      [(("model" : String), JValue.str ("x")),
        (("permissions" : String), JValue.obj
          [(("allow" : String), JValue.arr [JValue.str ("Read")])])]
      (some ("y"))
      [(("model" : String), JValue.str ("y")),
        (("permissions" : String), JValue.obj
          [(("allow" : String), JValue.arr [JValue.str ("Read"), JValue.str ("Grep")])])]
      (by decide)).2.2.2 ("y") rfl⟩

/-- C8: an existing global settings file that fails to parse is backed
up, logged as a `warning`, replaced by the empty document as the merge
base, and the run continues: a `current` or `installed` entry for the
settings file follows, rather than an abort. -/
theorem settings_malformed_recovery (tmpl : JObj) (modelVal : Option String)
    (ts : String) (m : JObj) (h : install_global_merge tmpl [] modelVal = some m) :
    ∃ o, install_global_settings (some tmpl) modelVal SettingsFile.malformed ts = some o ∧
      o.backedUpExisting = true ∧
      (∃ e ∈ o.log, e.status = Status.warning) ∧
      (∃ e ∈ o.log, e.status = Status.current ∨ e.status = Status.installed) ∧
      o.write = (if ([] : JObj) = m then none else some m) := by
  simp only [install_global_settings, h]
  by_cases hm : ([] : JObj) = m
  · rw [if_pos hm]
    refine ⟨_, rfl, rfl, ?_, ?_, by rw [if_pos hm]⟩
    · exact ⟨⟨Status.warning, settingsLabel ++ (" (malformed JSON, backed up -> ")
        ++ String.intercalate ("/") (bakPath SETTINGS_PATH ts) ++ (")")⟩, by simp, rfl⟩
    · exact ⟨⟨Status.current, settingsLabel⟩, by simp, Or.inl rfl⟩
  · rw [if_neg hm]
    have hcond : ¬ (SettingsFile.malformed ≠ SettingsFile.absent ∧ ([] : JObj) ≠ []) := by
      simp
    rw [if_neg hcond]
    refine ⟨_, rfl, rfl, ?_, ?_, by rw [if_neg hm]⟩
    · exact ⟨⟨Status.warning, settingsLabel ++ (" (malformed JSON, backed up -> ")
        ++ String.intercalate ("/") (bakPath SETTINGS_PATH ts) ++ (")")⟩, by simp, rfl⟩
    · exact ⟨⟨Status.installed, settingsLabel⟩, by simp, Or.inr rfl⟩

/-- Witness for C8: an empty template with no model selection — the
malformed document is backed up, a warning is logged, and the run
finishes with a `current` entry. -/
theorem settings_malformed_recovery_witness :
    ∃ o, install_global_settings (some []) none SettingsFile.malformed ("T") = some o ∧
      o.backedUpExisting = true ∧
      (∃ e ∈ o.log, e.status = Status.warning) ∧
      (∃ e ∈ o.log, e.status = Status.current ∨ e.status = Status.installed) ∧
      o.write = (if ([] : JObj) = [] then none else some []) :=
  settings_malformed_recovery [] none ("T") [] (by rfl)

/-- C10: `install_auto_read` on a project settings file that exists but
fails to parse as JSON silently treats it as empty and overwrites the
file with exactly the auto-read permissions block, logging `installed`
(`added 7 permissions`) — no backup is made and no `warning` entry is
emitted, so the malformed original content is lost. -/
theorem install_auto_read_malformed_overwrites :
    install_auto_read ProjSettings.malformed =
      some ⟨some AUTO_READ_PERMISSIONS,
        ⟨Status.installed, (".claude/settings.json (added 7 permissions)")⟩, false⟩ := by
  decide

/-!
## Frame effects of `deep_merge_settings` (C9)
-/

theorem hobjGet_hobjSet_self (o : HObj) (k : String) (v : HVal) :
    hobjGet (hobjSet o k v) k = some v := by
  induction o with
  | nil => simp [hobjSet, hobjGet]
  | cons e rest ih =>
      obtain ⟨k1, v1⟩ := e
      by_cases h : k1 = k
      · simp [hobjSet, hobjGet, h]
      · simp [hobjSet, hobjGet, h, ih]

theorem hobjGet_hobjSet_ne (o : HObj) (k kq : String) (v : HVal) (h : kq ≠ k) :
    hobjGet (hobjSet o k v) kq = hobjGet o kq := by
  induction o with
  | nil =>
      have : ¬ (k = kq) := fun hh => h hh.symm
      simp [hobjSet, hobjGet, this]
  | cons e rest ih =>
      obtain ⟨k1, v1⟩ := e
      by_cases h1 : k1 = k
      · subst h1
        have : ¬ (k1 = kq) := fun hh => h hh.symm
        simp [hobjSet, hobjGet, this]
      · by_cases hq : k1 = kq
        · simp [hobjSet, hobjGet, h1, hq, h]
        · simp [hobjSet, hobjGet, h1, hq, ih]

theorem heapGet_heapSet_self (h : Heap) (r : Ref) (v : List JValue) (hr : r < h.length) :
    heapGet (heapSet h r v) r = v := by
  induction h generalizing r with
  | nil => simp at hr
  | cons x t ih =>
      cases r with
      | zero => rfl
      | succ n => exact ih n (by simpa using hr)

theorem heapGet_heapSet_ne (h : Heap) (r r2 : Ref) (v : List JValue) (hne : r2 ≠ r) :
    heapGet (heapSet h r v) r2 = heapGet h r2 := by
  induction h generalizing r r2 with
  | nil => rfl
  | cons x t ih =>
      cases r with
      | zero =>
          cases r2 with
          | zero => exact absurd rfl hne
          | succ n2 => rfl
      | succ n =>
          cases r2 with
          | zero => rfl
          | succ n2 => exact ih n n2 (fun hh => hne (by rw [hh]))

theorem heapSet_length (h : Heap) (r : Ref) (v : List JValue) :
    (heapSet h r v).length = h.length := List.length_set h r v

theorem hobjRefs_cons (k : String) (v : HVal) (rest : HObj) :
    hobjRefs ((k, v) :: rest) = hvalRefs v ++ hobjRefs rest := rfl

theorem hobjGet_refs (b : HObj) (k : String) (v : HVal) (h : hobjGet b k = some v) :
    ∀ r ∈ hvalRefs v, r ∈ hobjRefs b := by
  induction b with
  | nil => simp [hobjGet] at h
  | cons e rest ih =>
      obtain ⟨k1, v1⟩ := e
      intro r hr
      rw [hobjRefs_cons]
      by_cases h1 : k1 = k
      · rw [hobjGet, if_pos h1] at h
        obtain rfl := Option.some.inj h
        exact List.mem_append_left _ hr
      · rw [hobjGet, if_neg h1] at h
        exact List.mem_append_right _ (ih h r hr)

theorem hobjRefs_hobjSet (b : HObj) (k : String) (v : HVal) (r : Ref)
    (h : r ∈ hobjRefs (hobjSet b k v)) : r ∈ hobjRefs b ∨ r ∈ hvalRefs v := by
  induction b with
  | nil =>
      simp only [hobjSet, hobjRefs_cons, hobjRefs, List.append_nil] at h
      exact Or.inr h
  | cons e rest ih =>
      obtain ⟨k1, v1⟩ := e
      by_cases h1 : k1 = k
      · rw [hobjSet, if_pos h1, hobjRefs_cons] at h
        rcases List.mem_append.mp h with h2 | h2
        · exact Or.inr h2
        · exact Or.inl (by rw [hobjRefs_cons]; exact List.mem_append_right _ h2)
      · rw [hobjSet, if_neg h1, hobjRefs_cons] at h
        rcases List.mem_append.mp h with h2 | h2
        · exact Or.inl (by rw [hobjRefs_cons]; exact List.mem_append_left _ h2)
        · rcases ih h2 with h3 | h3
          · exact Or.inl (by rw [hobjRefs_cons]; exact List.mem_append_right _ h3)
          · exact Or.inr h3

theorem dmh_nil (h : Heap) (b : HObj) : dmhList h b [] = (h, b) := rfl

theorem dmh_cons (h : Heap) (b : HObj) (k : String) (v : HVal)
    (rest : List (String × HVal)) :
    dmhList h b ((k, v) :: rest) =
      dmhList (dmhEntry h b k v).1 (dmhEntry h b k v).2 rest := rfl

theorem dmhEntry_prim (h : Heap) (b : HObj) (k : String) (p : JValue) :
    dmhEntry h b k (.prim p) = (h, hobjSet b k (.prim p)) := rfl

theorem dmhEntry_arr_hit (h : Heap) (b : HObj) (k : String) (ro rb : Ref)
    (hb : hobjGet b k = some (.arr rb)) :
    dmhEntry h b k (.arr ro) =
      (heapSet h rb (dedupeAppend (heapGet h rb) (heapGet h ro)), b) := by
  simp [dmhEntry, hb]

theorem dmhEntry_obj_hit (h : Heap) (b : HObj) (k : String) (oo bo : HObj)
    (hb : hobjGet b k = some (.obj bo)) :
    dmhEntry h b k (.obj oo) =
      ((dmhList h bo oo).1, hobjSet b k (.obj (dmhList h bo oo).2)) := by
  simp [dmhEntry, hb]

/-- Frame property of the heap-level merge: a list object referenced
neither from the base nor from the overlay is untouched, and is not
referenced from the result either. -/
theorem dmh_frame_aux (n : Nat) : ∀ (o : List (String × HVal)), sizeOf o ≤ n →
    ∀ (h : Heap) (b : HObj) (r : Ref),
    r ∉ hobjRefs b → r ∉ hobjRefs o →
    heapGet (dmhList h b o).1 r = heapGet h r ∧ r ∉ hobjRefs (dmhList h b o).2 := by
  induction n with
  | zero =>
      intro o hsz h b r hb ho
      cases o with
      | nil => exact ⟨rfl, hb⟩
      | cons e rest =>
          exfalso
          simp at hsz
  | succ n ih =>
      intro o hsz h b r hb ho
      cases o with
      | nil => exact ⟨rfl, hb⟩
      | cons e rest =>
          obtain ⟨k, v⟩ := e
          simp only [List.cons.sizeOf_spec, Prod.mk.sizeOf_spec] at hsz
          have hsz' : sizeOf rest ≤ n := by omega
          have hor : r ∉ hvalRefs v ∧ r ∉ hobjRefs rest := by
            rw [hobjRefs_cons] at ho
            exact ⟨fun hr => ho (List.mem_append_left _ hr),
                   fun hr => ho (List.mem_append_right _ hr)⟩
          rw [dmh_cons]
          have helse : ∀ h2 : Heap,
              heapGet (dmhList h2 (hobjSet b k v) rest).1 r = heapGet h2 r ∧
              r ∉ hobjRefs (dmhList h2 (hobjSet b k v) rest).2 := by
            intro h2
            refine ih rest hsz' h2 _ r ?_ hor.2
            intro hr
            rcases hobjRefs_hobjSet _ _ _ _ hr with h1 | h1
            · exact hb h1
            · exact hor.1 h1
          cases v with
          | prim p => exact helse h
          | arr ro =>
              cases hbk : hobjGet b k with
              | none =>
                  have : dmhEntry h b k (.arr ro) = (h, hobjSet b k (.arr ro)) := by
                    simp [dmhEntry, hbk]
                  rw [this]
                  exact helse h
              | some bv =>
                  cases bv with
                  | arr rb =>
                      rw [dmhEntry_arr_hit h b k ro rb hbk]
                      have hrb : rb ∈ hobjRefs b :=
                        hobjGet_refs b k _ hbk rb (by simp [hvalRefs])
                      have hner : r ≠ rb := fun hh => hb (hh ▸ hrb)
                      obtain ⟨ha, hb2⟩ := ih rest hsz' (heapSet h rb
                        (dedupeAppend (heapGet h rb) (heapGet h ro))) b r hb hor.2
                      exact ⟨by rw [ha, heapGet_heapSet_ne _ _ _ _ hner], hb2⟩
                  | obj bo =>
                      have : dmhEntry h b k (.arr ro) = (h, hobjSet b k (.arr ro)) := by
                        simp [dmhEntry, hbk]
                      rw [this]
                      exact helse h
                  | prim p =>
                      have : dmhEntry h b k (.arr ro) = (h, hobjSet b k (.arr ro)) := by
                        simp [dmhEntry, hbk]
                      rw [this]
                      exact helse h
          | obj oo =>
              have hszoo : sizeOf oo ≤ n := by
                simp only [HVal.obj.sizeOf_spec] at hsz
                omega
              cases hbk : hobjGet b k with
              | none =>
                  have : dmhEntry h b k (.obj oo) = (h, hobjSet b k (.obj oo)) := by
                    simp [dmhEntry, hbk]
                  rw [this]
                  exact helse h
              | some bv =>
                  cases bv with
                  | obj bo =>
                      rw [dmhEntry_obj_hit h b k oo bo hbk]
                      have hrbo : r ∉ hobjRefs bo :=
                        fun hr => hb (hobjGet_refs b k _ hbk r hr)
                      obtain ⟨ha1, hb1⟩ := ih oo hszoo h bo r hrbo hor.1
                      have hbset : r ∉ hobjRefs (hobjSet b k (.obj (dmhList h bo oo).2)) := by
                        intro hr
                        rcases hobjRefs_hobjSet _ _ _ _ hr with h1 | h1
                        · exact hb h1
                        · exact hb1 h1
                      obtain ⟨ha2, hb2⟩ := ih rest hsz' (dmhList h bo oo).1
                        (hobjSet b k (.obj (dmhList h bo oo).2)) r hbset hor.2
                      exact ⟨by rw [ha2, ha1], hb2⟩
                  | arr rb =>
                      have : dmhEntry h b k (.obj oo) = (h, hobjSet b k (.obj oo)) := by
                        simp [dmhEntry, hbk]
                      rw [this]
                      exact helse h
                  | prim p =>
                      have : dmhEntry h b k (.obj oo) = (h, hobjSet b k (.obj oo)) := by
                        simp [dmhEntry, hbk]
                      rw [this]
                      exact helse h

theorem dmh_frame (o : List (String × HVal)) (h : Heap) (b : HObj) (r : Ref)
    (hb : r ∉ hobjRefs b) (ho : r ∉ hobjRefs o) :
    heapGet (dmhList h b o).1 r = heapGet h r ∧ r ∉ hobjRefs (dmhList h b o).2 :=
  dmh_frame_aux (sizeOf o) o le_rfl h b r hb ho

theorem dmh_heap_len_aux (n : Nat) : ∀ (o : List (String × HVal)), sizeOf o ≤ n →
    ∀ (h : Heap) (b : HObj), (dmhList h b o).1.length = h.length := by
  induction n with
  | zero =>
      intro o hsz h b
      cases o with
      | nil => rfl
      | cons e rest =>
          exfalso
          simp at hsz
  | succ n ih =>
      intro o hsz h b
      cases o with
      | nil => rfl
      | cons e rest =>
          obtain ⟨k, v⟩ := e
          simp only [List.cons.sizeOf_spec, Prod.mk.sizeOf_spec] at hsz
          have hsz' : sizeOf rest ≤ n := by omega
          rw [dmh_cons]
          cases v with
          | prim p =>
              rw [dmhEntry_prim]
              exact ih rest hsz' h _
          | arr ro =>
              cases hbk : hobjGet b k with
              | none =>
                  have he : dmhEntry h b k (.arr ro) = (h, hobjSet b k (.arr ro)) := by
                    simp [dmhEntry, hbk]
                  rw [he]
                  exact ih rest hsz' h _
              | some bv =>
                  cases bv with
                  | arr rb =>
                      rw [dmhEntry_arr_hit h b k ro rb hbk]
                      rw [ih rest hsz' _ _]
                      exact heapSet_length h rb _
                  | obj bo =>
                      have he : dmhEntry h b k (.arr ro) = (h, hobjSet b k (.arr ro)) := by
                        simp [dmhEntry, hbk]
                      rw [he]
                      exact ih rest hsz' h _
                  | prim p =>
                      have he : dmhEntry h b k (.arr ro) = (h, hobjSet b k (.arr ro)) := by
                        simp [dmhEntry, hbk]
                      rw [he]
                      exact ih rest hsz' h _
          | obj oo =>
              have hszoo : sizeOf oo ≤ n := by
                simp only [HVal.obj.sizeOf_spec] at hsz
                omega
              cases hbk : hobjGet b k with
              | none =>
                  have he : dmhEntry h b k (.obj oo) = (h, hobjSet b k (.obj oo)) := by
                    simp [dmhEntry, hbk]
                  rw [he]
                  exact ih rest hsz' h _
              | some bv =>
                  cases bv with
                  | obj bo =>
                      rw [dmhEntry_obj_hit h b k oo bo hbk]
                      rw [ih rest hsz' _ _]
                      exact ih oo hszoo h bo
                  | arr rb =>
                      have he : dmhEntry h b k (.obj oo) = (h, hobjSet b k (.obj oo)) := by
                        simp [dmhEntry, hbk]
                      rw [he]
                      exact ih rest hsz' h _
                  | prim p =>
                      have he : dmhEntry h b k (.obj oo) = (h, hobjSet b k (.obj oo)) := by
                        simp [dmhEntry, hbk]
                      rw [he]
                      exact ih rest hsz' h _

theorem dmh_heap_len (o : List (String × HVal)) (h : Heap) (b : HObj) :
    (dmhList h b o).1.length = h.length :=
  dmh_heap_len_aux (sizeOf o) o le_rfl h b

theorem dmh_append (xs ys : List (String × HVal)) : ∀ (h : Heap) (b : HObj),
    dmhList h b (xs ++ ys) = dmhList (dmhList h b xs).1 (dmhList h b xs).2 ys := by
  induction xs with
  | nil => intro h b; rfl
  | cons e rest ih =>
      obtain ⟨k, v⟩ := e
      intro h b
      rw [List.cons_append, dmh_cons, dmh_cons, ih]

theorem hobjGet_split (o : HObj) (k : String) (v : HVal) (h : hobjGet o k = some v) :
    ∃ o1 o2, o = o1 ++ (k, v) :: o2 ∧ k ∉ o1.map Prod.fst := by
  induction o with
  | nil => simp [hobjGet] at h
  | cons e rest ih =>
      obtain ⟨k1, v1⟩ := e
      by_cases h1 : k1 = k
      · subst h1
        rw [hobjGet] at h
        simp only [if_pos rfl] at h
        obtain rfl := Option.some.inj h
        exact ⟨[], rest, rfl, by simp⟩
      · rw [hobjGet, if_neg h1] at h
        obtain ⟨o1, o2, heq, hk⟩ := ih h
        refine ⟨(k1, v1) :: o1, o2, by rw [heq]; rfl, ?_⟩
        simp only [List.map_cons, List.mem_cons]
        push_neg
        exact ⟨fun hh => h1 hh.symm, hk⟩

theorem mem_hobjSet (b : HObj) (k : String) (v : HVal) (p : String × HVal)
    (h : p ∈ hobjSet b k v) : p ∈ b ∨ p = (k, v) := by
  induction b with
  | nil =>
      rw [hobjSet] at h
      rcases List.mem_cons.mp h with h2 | h2
      · exact Or.inr h2
      · simp at h2
  | cons e rest ih =>
      obtain ⟨k1, v1⟩ := e
      by_cases h1 : k1 = k
      · rw [hobjSet, if_pos h1] at h
        rcases List.mem_cons.mp h with h2 | h2
        · exact Or.inr h2
        · exact Or.inl (List.mem_cons_of_mem _ h2)
      · rw [hobjSet, if_neg h1] at h
        rcases List.mem_cons.mp h with h2 | h2
        · exact Or.inl (h2 ▸ List.mem_cons_self _ _)
        · rcases ih h2 with h3 | h3
          · exact Or.inl (List.mem_cons_of_mem _ h3)
          · exact Or.inr h3

theorem hobjGet_mem (b : HObj) (k : String) (v : HVal) (h : hobjGet b k = some v) :
    (k, v) ∈ b := by
  induction b with
  | nil => simp [hobjGet] at h
  | cons e rest ih =>
      obtain ⟨k1, v1⟩ := e
      by_cases h1 : k1 = k
      · subst h1
        rw [hobjGet] at h
        simp only [if_pos rfl] at h
        obtain rfl := Option.some.inj h
        exact List.mem_cons_self _ _
      · rw [hobjGet, if_neg h1] at h
        exact List.mem_cons_of_mem _ (ih h)

/-- Processing overlay entries whose key differs from `k` leaves the heap
cells `rb` and `ro` untouched, keeps the base's binding `k ↦ arr rb`, and
maintains the invariant that no other binding of the evolving base
references `rb` or `ro`. -/
theorem dmh_others (o : List (String × HVal)) : ∀ (h : Heap) (b : HObj) (k : String)
    (rb ro : Ref),
    k ∉ o.map Prod.fst →
    (∀ p ∈ o, rb ∉ hvalRefs p.2 ∧ ro ∉ hvalRefs p.2) →
    hobjGet b k = some (.arr rb) →
    (∀ p ∈ b, p.1 ≠ k → rb ∉ hvalRefs p.2 ∧ ro ∉ hvalRefs p.2) →
    heapGet (dmhList h b o).1 rb = heapGet h rb ∧
    heapGet (dmhList h b o).1 ro = heapGet h ro ∧
    hobjGet (dmhList h b o).2 k = some (.arr rb) ∧
    (∀ p ∈ (dmhList h b o).2, p.1 ≠ k → rb ∉ hvalRefs p.2 ∧ ro ∉ hvalRefs p.2) := by
  induction o with
  | nil =>
      intro h b k rb ro _ _ hbk hinv
      exact ⟨rfl, rfl, hbk, hinv⟩
  | cons e rest ih =>
      intro h b k rb ro hknot hov hbk hinv
      obtain ⟨k1, v1⟩ := e
      have hk1 : k1 ≠ k := by
        simp only [List.map_cons, List.mem_cons] at hknot
        push_neg at hknot
        exact fun hh => hknot.1 hh.symm
      have hkk1 : k ≠ k1 := fun hh => hk1 hh.symm
      have hov1 : rb ∉ hvalRefs v1 ∧ ro ∉ hvalRefs v1 :=
        hov (k1, v1) (List.mem_cons_self _ _)
      have hovrest : ∀ p ∈ rest, rb ∉ hvalRefs p.2 ∧ ro ∉ hvalRefs p.2 :=
        fun p hp => hov p (List.mem_cons_of_mem _ hp)
      have hknotrest : k ∉ rest.map Prod.fst := by
        simp only [List.map_cons, List.mem_cons] at hknot
        push_neg at hknot
        exact hknot.2
      have hstep : ∀ v0 : HVal, rb ∉ hvalRefs v0 → ro ∉ hvalRefs v0 →
          hobjGet (hobjSet b k1 v0) k = some (.arr rb) ∧
          (∀ p ∈ hobjSet b k1 v0, p.1 ≠ k → rb ∉ hvalRefs p.2 ∧ ro ∉ hvalRefs p.2) := by
        intro v0 hv0b hv0o
        constructor
        · rw [hobjGet_hobjSet_ne _ _ _ _ hkk1]
          exact hbk
        · intro p hp hpk
          rcases mem_hobjSet _ _ _ _ hp with h2 | h2
          · exact hinv p h2 hpk
          · rw [h2]
            exact ⟨hv0b, hv0o⟩
      rw [dmh_cons]
      cases v1 with
      | prim p =>
          rw [dmhEntry_prim]
          exact ih h _ k rb ro hknotrest hovrest (hstep _ hov1.1 hov1.2).1
            (hstep _ hov1.1 hov1.2).2
      | arr ro1 =>
          cases hbk1 : hobjGet b k1 with
          | none =>
              have he : dmhEntry h b k1 (.arr ro1) = (h, hobjSet b k1 (.arr ro1)) := by
                simp [dmhEntry, hbk1]
              rw [he]
              exact ih h _ k rb ro hknotrest hovrest (hstep _ hov1.1 hov1.2).1
                (hstep _ hov1.1 hov1.2).2
          | some bv =>
              cases bv with
              | arr rb1 =>
                  rw [dmhEntry_arr_hit h b k1 ro1 rb1 hbk1]
                  have hmem1 : (k1, HVal.arr rb1) ∈ b := hobjGet_mem _ _ _ hbk1
                  have hinv1 := hinv (k1, HVal.arr rb1) hmem1 hk1
                  have hrb1b : rb ≠ rb1 := by
                    intro hh
                    exact hinv1.1 (by simp [hvalRefs, hh])
                  have hrb1o : ro ≠ rb1 := by
                    intro hh
                    exact hinv1.2 (by simp [hvalRefs, hh])
                  obtain ⟨e1, e2, e3, e4⟩ := ih (heapSet h rb1
                    (dedupeAppend (heapGet h rb1) (heapGet h ro1))) b k rb ro
                    hknotrest hovrest hbk hinv
                  refine ⟨?_, ?_, e3, e4⟩
                  · rw [e1, heapGet_heapSet_ne _ _ _ _ hrb1b]
                  · rw [e2, heapGet_heapSet_ne _ _ _ _ hrb1o]
              | obj bo =>
                  have he : dmhEntry h b k1 (.arr ro1) = (h, hobjSet b k1 (.arr ro1)) := by
                    simp [dmhEntry, hbk1]
                  rw [he]
                  exact ih h _ k rb ro hknotrest hovrest (hstep _ hov1.1 hov1.2).1
                    (hstep _ hov1.1 hov1.2).2
              | prim p =>
                  have he : dmhEntry h b k1 (.arr ro1) = (h, hobjSet b k1 (.arr ro1)) := by
                    simp [dmhEntry, hbk1]
                  rw [he]
                  exact ih h _ k rb ro hknotrest hovrest (hstep _ hov1.1 hov1.2).1
                    (hstep _ hov1.1 hov1.2).2
      | obj oo =>
          cases hbk1 : hobjGet b k1 with
          | none =>
              have he : dmhEntry h b k1 (.obj oo) = (h, hobjSet b k1 (.obj oo)) := by
                simp [dmhEntry, hbk1]
              rw [he]
              exact ih h _ k rb ro hknotrest hovrest (hstep _ hov1.1 hov1.2).1
                (hstep _ hov1.1 hov1.2).2
          | some bv =>
              cases bv with
              | obj bo =>
                  rw [dmhEntry_obj_hit h b k1 oo bo hbk1]
                  have hmem1 : (k1, HVal.obj bo) ∈ b := hobjGet_mem _ _ _ hbk1
                  have hinv1 := hinv (k1, HVal.obj bo) hmem1 hk1
                  obtain ⟨f1b, f2b⟩ := dmh_frame oo h bo rb hinv1.1 hov1.1
                  obtain ⟨f1o, f2o⟩ := dmh_frame oo h bo ro hinv1.2 hov1.2
                  obtain ⟨e1, e2, e3, e4⟩ := ih (dmhList h bo oo).1
                    (hobjSet b k1 (.obj (dmhList h bo oo).2)) k rb ro
                    hknotrest hovrest
                    (hstep (HVal.obj (dmhList h bo oo).2) f2b f2o).1
                    (hstep (HVal.obj (dmhList h bo oo).2) f2b f2o).2
                  exact ⟨by rw [e1, f1b], by rw [e2, f1o], e3, e4⟩
              | arr rb1 =>
                  have he : dmhEntry h b k1 (.obj oo) = (h, hobjSet b k1 (.obj oo)) := by
                    simp [dmhEntry, hbk1]
                  rw [he]
                  exact ih h _ k rb ro hknotrest hovrest (hstep _ hov1.1 hov1.2).1
                    (hstep _ hov1.1 hov1.2).2
              | prim p =>
                  have he : dmhEntry h b k1 (.obj oo) = (h, hobjSet b k1 (.obj oo)) := by
                    simp [dmhEntry, hbk1]
                  rw [he]
                  exact ih h _ k rb ro hknotrest hovrest (hstep _ hov1.1 hov1.2).1
                    (hstep _ hov1.1 hov1.2).2

/-- C9: `deep_merge_settings` is not pure in its base argument.  At the
heap level, for a key `k` mapped to list objects in both inputs (`rb` the
base's list object, `ro` the overlay's), and with `rb`, `ro` not
referenced from any other binding of either document (as for documents
built by a JSON parser, where every container is a distinct fresh
object), running the merge (1) leaves the very reference `rb` — owned by
`base` — in the returned document at `k`, and (2) overwrites the heap
cell of `rb` with the de-duplicated append of the overlay's elements:
after the call the caller's `base` document, which still holds `rb`,
observes the mutated list, and the returned document aliases it. -/
theorem deep_merge_settings_mutates_base_list
    (h : Heap) (base overlay : HObj) (k : String) (rb ro : Ref) (bl ol : List JValue)
    (hnd : (overlay.map Prod.fst).Nodup)
    (hbk : hobjGet base k = some (.arr rb))
    (hok : hobjGet overlay k = some (.arr ro))
    (hlen : rb < h.length)
    (hgb : heapGet h rb = bl) (hgo : heapGet h ro = ol)
    (hbase : ∀ p ∈ base, p.1 ≠ k → rb ∉ hvalRefs p.2 ∧ ro ∉ hvalRefs p.2)
    (hov : ∀ p ∈ overlay, p.1 ≠ k → rb ∉ hvalRefs p.2 ∧ ro ∉ hvalRefs p.2) :
    hobjGet (dmhList h base overlay).2 k = some (.arr rb) ∧
    heapGet (dmhList h base overlay).1 rb = dedupeAppend bl ol := by
  obtain ⟨o1, o2, hsplit, hk1⟩ := hobjGet_split overlay k _ hok
  subst hsplit
  have hk2 : k ∉ o2.map Prod.fst := by
    rw [List.map_append, List.map_cons, List.nodup_append] at hnd
    exact (List.nodup_cons.mp hnd.2.1).1
  have hov1 : ∀ p ∈ o1, rb ∉ hvalRefs p.2 ∧ ro ∉ hvalRefs p.2 := by
    intro p hp
    refine hov p (List.mem_append_left _ hp) ?_
    intro hh
    exact hk1 (hh ▸ List.mem_map_of_mem Prod.fst hp)
  have hov2 : ∀ p ∈ o2, rb ∉ hvalRefs p.2 ∧ ro ∉ hvalRefs p.2 := by
    intro p hp
    refine hov p (List.mem_append_right _ (List.mem_cons_of_mem _ hp)) ?_
    intro hh
    exact hk2 (hh ▸ List.mem_map_of_mem Prod.fst hp)
  obtain ⟨e1, e2, e3, e4⟩ := dmh_others o1 h base k rb ro hk1 hov1 hbk hbase
  rw [dmh_append, dmh_cons, dmhEntry_arr_hit _ _ _ ro rb e3, e1, e2, hgb, hgo]
  obtain ⟨f1, f2, f3, f4⟩ := dmh_others o2
    (heapSet (dmhList h base o1).1 rb (dedupeAppend bl ol)) (dmhList h base o1).2
    k rb ro hk2 hov2 e3 e4
  refine ⟨f3, ?_⟩
  rw [f1]
  apply heapGet_heapSet_self
  rw [dmh_heap_len]
  exact hlen

/-- Witness for C9: base `{"k": l0}` with `l0 = [1, 2]` on the heap,
overlay `{"k": l1}` with `l1 = [2, 3]`: the merged document still holds
the base's reference `0`, whose heap cell now reads `[1, 2, 3]`. -/
theorem deep_merge_settings_mutates_base_list_witness :
    hobjGet (dmhList [[JValue.num 1, JValue.num 2], [JValue.num 2, JValue.num 3]]
      [(("k" : String), HVal.arr 0)] [(("k" : String), HVal.arr 1)]).2 ("k")
      = some (.arr 0) ∧
    heapGet (dmhList [[JValue.num 1, JValue.num 2], [JValue.num 2, JValue.num 3]]
      [(("k" : String), HVal.arr 0)] [(("k" : String), HVal.arr 1)]).1 0
      = dedupeAppend [JValue.num 1, JValue.num 2] [JValue.num 2, JValue.num 3] :=
  deep_merge_settings_mutates_base_list
    [[JValue.num 1, JValue.num 2], [JValue.num 2, JValue.num 3]]
    [(("k" : String), HVal.arr 0)] [(("k" : String), HVal.arr 1)] ("k") 0 1
    [JValue.num 1, JValue.num 2] [JValue.num 2, JValue.num 3]
    (by decide) (by rfl) (by rfl) (by decide) (by rfl) (by rfl)
    (by decide) (by decide)
